import Mathlib

/-!
# r.example.twice

A shallow embedding of `src/c_example/r.example.twice/main.c`: the scalar
helper `times_two` and the procedure `main`, which streams the rows of a
raster through two row buffers and writes every non-null cell doubled.

* `DCELL` is the C type `double` (IEEE-754 binary64) in which the module
  computes; `DCELL.mul` is the `*` of that type, rounding to nearest, ties to
  even.
* The raster library is not part of the module.  Its answers are the fields of
  a `World`; every call the module makes is recorded, in program order, in a
  log of `Event`s, and the rows handed to `Rast_put_d_row` are the output
  raster.
-/

set_option exponentiation.threshold 5000
set_option maxRecDepth 10000

namespace Twice

/-! ## The type `double` -/

/-- IEEE-754 binary64 datum: a NaN, an infinity, or a finite number given by its sign
bit, its biased exponent field `expo` (0 for zeros and subnormals, 1..2046 for normal
numbers) and its 52-bit fraction field `frac`.  NaN payloads are not distinguished. -/
inductive DCELL where
  | nan : DCELL
  | inf (neg : Bool) : DCELL
  | fin (neg : Bool) (expo : Fin 2047) (frac : Fin 4503599627370496) : DCELL
deriving DecidableEq, Repr

namespace DCELL

/-- Number of binary digits of `n`; `fuel` bounds the number of halvings. -/
def bitLen : Nat → Nat → Nat
  | 0, _ => 0
  | fuel + 1, n => if n = 0 then 0 else bitLen fuel (n / 2) + 1

/-- Integer significand: the fraction field, with the hidden bit for normal numbers. -/
def sig : DCELL → Nat
  | fin _ e f => if e.val = 0 then f.val else 4503599627370496 + f.val
  | _ => 0

/-- Binary exponent of the last significand bit, counted from `2^(-1074)`. -/
def qexp : DCELL → Nat
  | fin _ e _ => e.val - 1
  | _ => 0

/-- Magnitude of a finite number as a multiple of the smallest subnormal `2^(-1074)`. -/
def units (x : DCELL) : Nat := sig x * 2 ^ qexp x

/-- Round the magnitude `p * 2^s / 2^k` (in multiples of `2^(-1074)`) to nearest, ties to
even, at 53 significant bits and never finer than one unit.  The result is the 63-bit
pattern `expo * 2^52 + frac`; a pattern from `2047 * 2^52` on stands for overflow. -/
def roundBits (p s k : Nat) : Nat :=
  let n := p * 2 ^ s
  let d := max k (bitLen p p + s - 53)
  let m0 := n / 2 ^ d
  let r := n % 2 ^ d
  let up : Bool := decide (2 ^ d < 2 * r) || (decide (2 * r = 2 ^ d) && decide (m0 % 2 = 1))
  if p = 0 then 0 else (d - k) * 4503599627370496 + m0 + (if up then 1 else 0)

/-- Decode a rounded magnitude pattern; overflow gives the infinity of that sign. -/
def ofBits (neg : Bool) (b : Nat) : DCELL :=
  if h : b < 2047 * 4503599627370496 then
    fin neg ⟨b / 4503599627370496, by omega⟩ ⟨b % 4503599627370496, by omega⟩
  else inf neg

/-- The `*` of `double`. -/
def mul : DCELL → DCELL → DCELL
  | nan, _ => nan
  | _, nan => nan
  | inf s, inf t => inf (xor s t)
  | inf s, fin t e f => if e.val = 0 ∧ f.val = 0 then nan else inf (xor s t)
  | fin s e f, inf t => if e.val = 0 ∧ f.val = 0 then nan else inf (xor s t)
  | fin s e f, fin t e2 f2 =>
      ofBits (xor s t)
        (roundBits (sig (fin s e f) * sig (fin t e2 f2))
          (qexp (fin s e f) + qexp (fin t e2 f2)) 1074)

/-- Conversion of a C `int` to `double`. -/
def ofInt (n : Int) : DCELL :=
  ofBits (decide (n < 0)) (roundBits n.natAbs 1074 0)

/-- Unary minus of `double`: flips the sign bit. -/
def neg : DCELL → DCELL
  | nan => nan
  | inf s => inf (!s)
  | fin s e f => fin (!s) e f

/-- Finite numbers: neither NaN nor an infinity. -/
def isFinite : DCELL → Bool
  | fin _ _ _ => true
  | _ => false

/-- Zeros of either sign. -/
def isZero : DCELL → Bool
  | fin _ e f => decide (e.val = 0 ∧ f.val = 0)
  | _ => false

/-- Exact value of a finite number as a rational; `none` for NaN and the infinities. -/
def value : DCELL → Option ℚ
  | fin s e f =>
      some ((if s then -1 else 1) * (units (fin s e f) : ℚ) / 2 ^ 1074)
  | _ => none

/-- Largest finite `double`, `DBL_MAX`. -/
def DBL_MAX : DCELL := fin false ⟨2046, by decide⟩ ⟨4503599627370495, by decide⟩

end DCELL

/-! ## `times_two` (main.c, lines 24-27) -/

/-- The helper `static double times_two(double a)`, whose body is `return 2 * a;`: the
`int` constant 2 is converted to `double` and multiplied with `a` in `double`. -/
def times_two (a : DCELL) : DCELL := DCELL.mul (DCELL.ofInt 2) a

/-! ## The raster library, as the module consumes it -/

/-- Storage type of a raster map (`RASTER_MAP_TYPE`): integer, single or double precision. -/
inductive RASTER_MAP_TYPE where
  | CELL_TYPE
  | FCELL_TYPE
  | DCELL_TYPE
deriving DecidableEq, Repr

/-- Exit status `EXIT_SUCCESS` of `<stdlib.h>`. -/
def EXIT_SUCCESS : Int := 0

/-- Exit status `EXIT_FAILURE` of `<stdlib.h>`. -/
def EXIT_FAILURE : Int := 1

/-- Answers of the environment to the calls of one run: the parsed command line, the
raster library and the computational region.  `G_parser_result` is the value that the
call `G_parser(argc, argv)` returns.  `Rast_open_old` and `Rast_open_new` answer `none`
when the library cannot open the map ("returns a file descriptor ... or fails").
`Rast_get_d_row fd row col` is the cell, converted to `double`, that reading row `row` of
`fd` puts into column `col` of the row buffer; `Rast_allocate_d_buf k` is the content of
the `k`-th buffer handed out. -/
structure World where
  G_parser_result : Int
  input_answer : String
  output_answer : String
  Rast_open_old : String → Option Int
  Rast_map_type : String → RASTER_MAP_TYPE
  Rast_open_new : String → RASTER_MAP_TYPE → Option Int
  Rast_allocate_d_buf : Nat → Nat → DCELL
  Rast_window_rows : Int
  Rast_window_cols : Int
  Rast_get_d_row : Int → Int → Nat → DCELL

/-- Calls made during a run, in program order. -/
inductive Event where
  | G_gisinit
  | G_define_module
  | G_add_keyword (keyword : String)
  | G_define_standard_option (opt : String)
  | G_parser_call
  | Rast_open_old (name : String)
  | Rast_map_type (name : String)
  | Rast_open_new (name : String) (data_type : RASTER_MAP_TYPE)
  | Rast_allocate_d_buf
  | Rast_window_rows
  | Rast_window_cols
  | G_percent (n d s : Int)
  | Rast_get_d_row (fd : Int) (row : Int)
  | Rast_is_d_null_value (col : Int) (value : DCELL)
  | Rast_set_d_null_value (col : Int) (count : Int)
  | times_two (a : DCELL)
  | Rast_put_d_row (fd : Int) (cells : List DCELL)
  | G_free
  | Rast_close (fd : Int)
  | Rast_short_history (name : String)
  | Rast_command_history
  | Rast_write_history (name : String)
  | G_fatal_error
  | exit (status : Int)
deriving DecidableEq, Repr

/-- Modelled from the spec: the library's null test, which is not in src.  The null
marker is a sentinel distinct from every number; for `double` cells it is the NaN. -/
def Rast_is_d_null_value (v : DCELL) : Bool :=
  match v with
  | DCELL.nan => true
  | _ => false

/-- Modelled from the spec: the library's null assignment, which is not in src: the
`count` cells from position `pos` on become the null marker. -/
def Rast_set_d_null_value (buf : Nat → DCELL) (pos : Nat) (count : Nat) : Nat → DCELL :=
  fun i => if pos ≤ i ∧ i < pos + count then DCELL.nan else buf i

/-! ## `main` (main.c, lines 29-116) -/

/-- Program state of the row loop: the two row buffers and the calls made so far. -/
structure State where
  input_buffer : Nat → DCELL
  output_buffer : Nat → DCELL
  log : List Event

/-- The loop `for (int i = 0; i < n; i++) body`: the body runs for `i = 0, ..., n-1` in
this order, and not at all when `n ≤ 0`. -/
def for_loop {σ : Type} (n : Int) (body : Nat → σ → σ) (st : σ) : σ :=
  (List.range n.toNat).foldl (fun s i => body i s) st

/-- Lines 88-91: the per-cell branch between the null marker and `times_two`. -/
def cell_step (col : Nat) (st : State) : State :=
  if Rast_is_d_null_value (st.input_buffer col) then
    { st with
      output_buffer := Rast_set_d_null_value st.output_buffer col 1
      log := st.log ++ [Event.Rast_is_d_null_value col (st.input_buffer col),
                        Event.Rast_set_d_null_value col 1] }
  else
    { st with
      output_buffer := Function.update st.output_buffer col (times_two (st.input_buffer col))
      log := st.log ++ [Event.Rast_is_d_null_value col (st.input_buffer col),
                        Event.times_two (st.input_buffer col)] }

/-- Lines 74-96: one pass of the row loop.  Reading fills the first `Rast_window_cols`
cells of the input buffer; writing hands the first `Rast_window_cols` cells of the
output buffer to the library. -/
def row_step (w : World) (input_fd output_fd : Int) (nrows ncols : Int) (row : Nat)
    (st : State) : State :=
  let st1 : State :=
    { st with log := st.log ++ [Event.G_percent row nrows 10] }
  let st2 : State :=
    { st1 with
      input_buffer := fun col =>
        if (col : Int) < w.Rast_window_cols then w.Rast_get_d_row input_fd row col
        else st1.input_buffer col
      log := st1.log ++ [Event.Rast_get_d_row input_fd row] }
  let st3 : State := for_loop ncols cell_step st2
  { st3 with
    log := st3.log ++
      [Event.Rast_put_d_row output_fd
        ((List.range w.Rast_window_cols.toNat).map st3.output_buffer)] }

/-- Lines 73-97: the row loop. -/
def row_loop (w : World) (input_fd output_fd : Int) (nrows ncols : Int) (st : State) : State :=
  for_loop nrows (row_step w input_fd output_fd nrows ncols) st

/-- Result of a run: the calls made and the exit status of the process. -/
structure Outcome where
  log : List Event
  status : Int

/-- Lines 32-45: initialisation, interface definition and command-line parsing. -/
def prologue : List Event :=
  [Event.G_gisinit, Event.G_define_module,
   Event.G_add_keyword "raster", Event.G_add_keyword "algebra",
   Event.G_add_keyword "multiplication",
   Event.G_define_standard_option "G_OPT_R_INPUT",
   Event.G_define_standard_option "G_OPT_R_OUTPUT",
   Event.G_parser_call]

/-- Modelled from the spec: the library's fatal path, which is not in src: the library
reports the error and the process terminates with a non-zero status. -/
def fatal (log : List Event) : Outcome :=
  { log := log ++ [Event.G_fatal_error, Event.exit EXIT_FAILURE], status := EXIT_FAILURE }

/-- The procedure `int main(int argc, char *argv[])`.  A non-zero answer of the command
line parser ends the run with `exit(EXIT_FAILURE)`; a map that does not open ends it on
the library's fatal path; otherwise the rows are streamed, the buffers freed, the maps
closed, the history written, and the run ends with `exit(EXIT_SUCCESS)`. -/
def main (w : World) : Outcome :=
  if w.G_parser_result ≠ 0 then
    { log := prologue ++ [Event.exit EXIT_FAILURE], status := EXIT_FAILURE }
  else
    let log1 := prologue ++ [Event.Rast_open_old w.input_answer]
    match w.Rast_open_old w.input_answer with
    | none => fatal log1
    | some input_fd =>
      let data_type := w.Rast_map_type w.input_answer
      let log2 := log1 ++ [Event.Rast_map_type w.input_answer,
                           Event.Rast_open_new w.output_answer data_type]
      match w.Rast_open_new w.output_answer data_type with
      | none => fatal log2
      | some output_fd =>
        let input_buffer := w.Rast_allocate_d_buf 0
        let output_buffer := w.Rast_allocate_d_buf 1
        let nrows := w.Rast_window_rows
        let ncols := w.Rast_window_cols
        let st0 : State :=
          { input_buffer := input_buffer
            output_buffer := output_buffer
            log := log2 ++ [Event.Rast_allocate_d_buf, Event.Rast_allocate_d_buf,
                            Event.Rast_window_rows, Event.Rast_window_cols] }
        let st := row_loop w input_fd output_fd nrows ncols st0
        { log := st.log ++
            [Event.G_percent 1 1 1, Event.G_free, Event.G_free,
             Event.Rast_close input_fd, Event.Rast_close output_fd,
             Event.Rast_short_history w.output_answer, Event.Rast_command_history,
             Event.Rast_write_history w.output_answer,
             Event.exit EXIT_SUCCESS]
          status := EXIT_SUCCESS }

/-! ## What a run leaves behind -/

/-- Rows handed to `Rast_put_d_row`, in order: the output raster. -/
def written_rows (log : List Event) : List (List DCELL) :=
  log.filterMap fun e =>
    match e with
    | Event.Rast_put_d_row _ cells => some cells
    | _ => none

/-- Arguments of the calls of `times_two`, in order. -/
def times_two_calls (log : List Event) : List DCELL :=
  log.filterMap fun e =>
    match e with
    | Event.times_two a => some a
    | _ => none

/-- Row reads and row writes of a run, in order. -/
def raster_io (log : List Event) : List Event :=
  log.filter fun e =>
    match e with
    | Event.Rast_get_d_row _ _ => true
    | Event.Rast_put_d_row _ _ => true
    | _ => false

/-- Storage types with which `Rast_open_new` was called, in order. -/
def open_new_types (log : List Event) : List RASTER_MAP_TYPE :=
  log.filterMap fun e =>
    match e with
    | Event.Rast_open_new _ t => some t
    | _ => none

/-- Calls that create or change the output raster: opening it for writing, writing a
row, preparing and writing its history. -/
def touches_output (e : Event) : Bool :=
  match e with
  | Event.Rast_open_new _ _ => true
  | Event.Rast_put_d_row _ _ => true
  | Event.Rast_short_history _ => true
  | Event.Rast_write_history _ => true
  | _ => false

/-- Lines 88-91 as a map on one cell: the null marker stays, a number is doubled. -/
def cell_map (v : DCELL) : DCELL :=
  if Rast_is_d_null_value v then DCELL.nan else times_two v

/-- Calls made for one cell: the null test, then the null assignment or `times_two`. -/
def cell_events (col : Nat) (v : DCELL) : List Event :=
  [Event.Rast_is_d_null_value col v,
   if Rast_is_d_null_value v then Event.Rast_set_d_null_value col 1 else Event.times_two v]

/-- Row `row` of the input as the library reads it, column by column. -/
def input_row (w : World) (input_fd : Int) (row : Nat) : List DCELL :=
  (List.range w.Rast_window_cols.toNat).map fun col => w.Rast_get_d_row input_fd row col

/-- Calls made by one pass of the row loop. -/
def row_events (w : World) (input_fd output_fd : Int) (row : Nat) : List Event :=
  [Event.G_percent row w.Rast_window_rows 10, Event.Rast_get_d_row input_fd row] ++
    (List.range w.Rast_window_cols.toNat).flatMap
      (fun col => cell_events col (w.Rast_get_d_row input_fd row col)) ++
    [Event.Rast_put_d_row output_fd ((input_row w input_fd row).map cell_map)]

/-- Calls made after the row loop of a complete run (lines 98-115). -/
def epilogue (w : World) (input_fd output_fd : Int) : List Event :=
  [Event.G_percent 1 1 1, Event.G_free, Event.G_free,
   Event.Rast_close input_fd, Event.Rast_close output_fd,
   Event.Rast_short_history w.output_answer, Event.Rast_command_history,
   Event.Rast_write_history w.output_answer,
   Event.exit EXIT_SUCCESS]

/-- Calls made before the row loop of a run in which both maps are opened (lines 32-68). -/
def setup (w : World) : List Event :=
  prologue ++
    [Event.Rast_open_old w.input_answer, Event.Rast_map_type w.input_answer,
     Event.Rast_open_new w.output_answer (w.Rast_map_type w.input_answer),
     Event.Rast_allocate_d_buf, Event.Rast_allocate_d_buf,
     Event.Rast_window_rows, Event.Rast_window_cols]

/-- Cell `(row, col)` of a raster given as a list of rows; the null marker outside it. -/
def cell_at (cells : List (List DCELL)) (row : Int) (col : Nat) : DCELL :=
  if 0 ≤ row then (cells.getD row.toNat []).getD col DCELL.nan else DCELL.nan

/-- A run on the raster `cells`, read through a region of `rows` by `cols` cells: the
command line parses, the input map opens as descriptor 3 and the output map as
descriptor 4, and both row buffers start out filled with `stale`. -/
def world_on (cells : List (List DCELL)) (rows cols : Int) (stale : DCELL) : World :=
  { G_parser_result := 0
    input_answer := "input"
    output_answer := "output"
    Rast_open_old := fun _ => some 3
    Rast_map_type := fun _ => RASTER_MAP_TYPE.DCELL_TYPE
    Rast_open_new := fun _ _ => some 4
    Rast_allocate_d_buf := fun _ _ => stale
    Rast_window_rows := rows
    Rast_window_cols := cols
    Rast_get_d_row := fun _ row col => cell_at cells row col }

/-- A run on the integer map `cells`, read through a region of `rows` by `cols` cells: as
`world_on`, but the storage type of the input map is `CELL_TYPE` and every cell is read
as the double of the stored integer. -/
def world_on_integer_map (cells : List (List Int)) (rows cols : Int) (stale : DCELL) :
    World :=
  { world_on (cells.map (fun r => r.map DCELL.ofInt)) rows cols stale with
    Rast_map_type := fun _ => RASTER_MAP_TYPE.CELL_TYPE }

/-- Modelled from the spec: the value range of the integer storage type (`CELL`, a C
`int`), whose declaration is in the headers of the library and not in src; taken as 32
bits, two's complement. -/
def fits_CELL (n : Int) : Bool := decide (-2147483648 ≤ n ∧ n ≤ 2147483647)

/-! ## Doubling in `double` -/

namespace DCELL

theorem bitLen_zero (fuel : Nat) : bitLen fuel 0 = 0 := by
  cases fuel <;> simp [bitLen]

theorem bitLen_bounds (fuel : Nat) : ∀ n : Nat, n < 2 ^ fuel →
    n < 2 ^ bitLen fuel n ∧ (n ≠ 0 → 2 ^ (bitLen fuel n - 1) ≤ n) := by
  induction fuel with
  | zero =>
    intro n hn
    have : n = 0 := by simpa using hn
    subst this
    simp [bitLen]
  | succ fuel ih =>
    intro n hn
    by_cases h0 : n = 0
    · subst h0; simp [bitLen]
    · have hhalf : n / 2 < 2 ^ fuel := by
        rw [pow_succ] at hn; omega
      obtain ⟨h1, h2⟩ := ih (n / 2) hhalf
      simp only [bitLen, h0, if_false, Nat.add_sub_cancel]
      refine ⟨?_, fun _ => ?_⟩
      · rw [pow_succ]; omega
      · by_cases hq : n / 2 = 0
        · rw [hq, bitLen_zero]; simp; omega
        · have h3 := h2 hq
          have hb : bitLen fuel (n / 2) ≠ 0 := by
            intro hb; rw [hb] at h1; simp at h1; exact hq h1
          obtain ⟨b, hb'⟩ := Nat.exists_eq_succ_of_ne_zero hb
          rw [hb'] at h3 ⊢
          simp only [Nat.succ_eq_add_one, Nat.add_sub_cancel] at h3
          rw [pow_succ]; omega

theorem bitLen_eq (n L : Nat) (h1 : 2 ^ L ≤ n) (h2 : n < 2 ^ (L + 1)) :
    bitLen n n = L + 1 := by
  have hn : n ≠ 0 := by
    have := Nat.two_pow_pos L; omega
  obtain ⟨a, b⟩ := bitLen_bounds n n (Nat.lt_two_pow n)
  have b := b hn
  have hlt : L < bitLen n n := by
    by_contra hc
    have : 2 ^ bitLen n n ≤ 2 ^ L := Nat.pow_le_pow_right (by norm_num) (by omega)
    omega
  have hle : bitLen n n - 1 < L + 1 := by
    by_contra hc
    have : 2 ^ (L + 1) ≤ 2 ^ (bitLen n n - 1) := Nat.pow_le_pow_right (by norm_num) (by omega)
    omega
  omega


theorem ofInt_two : ofInt 2 = fin false ⟨1024, by decide⟩ ⟨0, by decide⟩ := by decide

theorem roundBits_two_subnormal (f : Nat) (hf : f < 4503599627370496) :
    roundBits (4503599627370496 * f) 1023 1074 = 2 * f := by
  by_cases h0 : f = 0
  · subst h0; simp [roundBits]
  · have hp : 4503599627370496 * f ≠ 0 := by omega
    obtain ⟨a, b⟩ := bitLen_bounds (4503599627370496 * f) (4503599627370496 * f)
      (Nat.lt_two_pow _)
    have b := b hp
    have hbl : bitLen (4503599627370496 * f) (4503599627370496 * f) ≤ 104 := by
      by_contra hc
      have : 2 ^ 104 ≤ 2 ^ (bitLen (4503599627370496 * f) (4503599627370496 * f) - 1) :=
        Nat.pow_le_pow_right (by norm_num) (by omega)
      have h104 : (2:Nat) ^ 104 = 4503599627370496 * 4503599627370496 := by norm_num
      omega
    have hd : max 1074 (bitLen (4503599627370496 * f) (4503599627370496 * f) + 1023 - 53)
        = 1074 := by omega
    have hn : 4503599627370496 * f * 2 ^ 1023 = (2 * f) * 2 ^ 1074 := by
      have : (2:Nat) ^ 1074 = 2 ^ 51 * 2 ^ 1023 := by rw [← pow_add]
      rw [this]; ring
    simp only [roundBits, hd, hn, hp, if_false, Nat.mul_mod_left,
      Nat.mul_div_cancel _ (Nat.two_pow_pos 1074)]
    simp


theorem roundBits_two_normal (f q : Nat) (hf : f < 4503599627370496) :
    roundBits (4503599627370496 * (4503599627370496 + f)) (1023 + q) 1074 =
      (q + 1) * 4503599627370496 + (4503599627370496 + f) := by
  have hp : 4503599627370496 * (4503599627370496 + f) ≠ 0 := by omega
  have hbl : bitLen (4503599627370496 * (4503599627370496 + f))
      (4503599627370496 * (4503599627370496 + f)) = 104 + 1 := by
    apply bitLen_eq
    · have : (2:Nat) ^ 104 = 4503599627370496 * 4503599627370496 := by norm_num
      omega
    · have : (2:Nat) ^ (104 + 1) = 4503599627370496 * (2 * 4503599627370496) := by norm_num
      omega
  have hd : max 1074 (104 + 1 + (1023 + q) - 53) = q + 1075 := by omega
  have hn : 4503599627370496 * (4503599627370496 + f) * 2 ^ (1023 + q) =
      (4503599627370496 + f) * 2 ^ (q + 1075) := by
    have : (2:Nat) ^ (q + 1075) = 2 ^ 52 * 2 ^ (1023 + q) := by
      rw [← pow_add]; congr 1; omega
    rw [this]; ring
  have hpos : 0 < 2 ^ (q + 1075) := Nat.two_pow_pos _
  simp only [roundBits, hbl, hd, hn, hp, if_false, Nat.mul_mod_left,
    Nat.mul_div_cancel _ hpos]
  have h2 : ¬ (0 = 2 ^ (q + 1075)) := by omega
  simp only [h2]
  simp

theorem mul_two_fin (s : Bool) (e : Fin 2047) (f : Fin 4503599627370496) :
    mul (ofInt 2) (fin s e f) =
      ofBits s (if e.val = 0 then 2 * f.val
        else (e.val + 1) * 4503599627370496 + f.val) := by
  rw [ofInt_two]
  simp only [mul, sig, qexp, Bool.false_xor]
  have hsig : (if (1024 : Nat) = 0 then 0 else 4503599627370496 + 0) = 4503599627370496 := by norm_num
  rw [hsig]
  by_cases he : e.val = 0
  · simp only [he, if_true]
    have h1 : 1024 - 1 + (0 - 1) = 1023 := by norm_num
    rw [h1, roundBits_two_subnormal f.val f.isLt]
  · simp only [he, if_false]
    have h1 : 1024 - 1 + (e.val - 1) = 1023 + (e.val - 1) := by norm_num
    rw [h1, roundBits_two_normal f.val (e.val - 1) f.isLt]
    have h2 : (e.val - 1 + 1) * 4503599627370496 + (4503599627370496 + f.val) =
        (e.val + 1) * 4503599627370496 + f.val := by omega
    rw [h2]

end DCELL

open DCELL

theorem times_two_nan : times_two nan = nan := by
  unfold times_two; rw [ofInt_two]; rfl

theorem times_two_inf (s : Bool) : times_two (inf s) = inf s := by
  unfold times_two; rw [ofInt_two]; simp [mul]

theorem times_two_fin (s : Bool) (e : Fin 2047) (f : Fin 4503599627370496) :
    times_two (fin s e f) =
      ofBits s (if e.val = 0 then 2 * f.val else (e.val + 1) * 4503599627370496 + f.val) :=
  mul_two_fin s e f

theorem times_two_overflow (s : Bool) (e : Fin 2047) (f : Fin 4503599627370496)
    (h : e.val = 2046) : times_two (fin s e f) = inf s := by
  rw [times_two_fin]
  have h0 : ¬ e.val = 0 := by omega
  have hb : ¬ ((e.val + 1) * 4503599627370496 + f.val < 2047 * 4503599627370496) := by omega
  simp only [h0, if_false, ofBits, hb, dif_neg, not_false_eq_true]

theorem times_two_finite (s : Bool) (e : Fin 2047) (f : Fin 4503599627370496)
    (h : e.val < 2046) :
    ∃ e2 f2, times_two (fin s e f) = fin s e2 f2 ∧
      e2.val * 4503599627370496 + f2.val =
        (if e.val = 0 then 2 * f.val else (e.val + 1) * 4503599627370496 + f.val) := by
  rw [times_two_fin]
  have hf := f.isLt
  by_cases h0 : e.val = 0
  · have hb : 2 * f.val < 2047 * 4503599627370496 := by omega
    simp only [h0, if_true, ofBits, hb, dif_pos]
    refine ⟨_, _, rfl, ?_⟩
    simp only []
    omega
  · have hb : (e.val + 1) * 4503599627370496 + f.val < 2047 * 4503599627370496 := by omega
    simp only [h0, if_false, ofBits, hb, dif_pos]
    refine ⟨_, _, rfl, ?_⟩
    simp only []
    omega

theorem units_of_bits (s : Bool) (e : Fin 2047) (f : Fin 4503599627370496) :
    units (fin s e f) =
      (if e.val = 0 then f.val else (4503599627370496 + f.val) * 2 ^ (e.val - 1)) := by
  unfold units sig qexp
  by_cases h0 : e.val = 0
  · simp [h0]
  · simp [h0]

theorem times_two_units (s : Bool) (e : Fin 2047) (f : Fin 4503599627370496)
    (h : e.val < 2046) :
    ∃ e2 f2, times_two (fin s e f) = fin s e2 f2 ∧
      units (fin s e2 f2) = 2 * units (fin s e f) := by
  obtain ⟨e2, f2, h1, h2⟩ := times_two_finite s e f h
  refine ⟨e2, f2, h1, ?_⟩
  have hf := f.isLt
  have hf2 := f2.isLt
  rw [units_of_bits, units_of_bits]
  by_cases h0 : e.val = 0
  · simp only [h0, if_true] at h2 ⊢
    by_cases h3 : e2.val = 0
    · simp only [h3, if_true]; omega
    · have h4 : e2.val = 1 := by omega
      rw [if_neg h3, h4]
      simp only [Nat.sub_self, pow_zero, mul_one]
      omega
  · simp only [h0, if_false] at h2 ⊢
    have h3 : e2.val = e.val + 1 := by omega
    have h4 : f2.val = f.val := by omega
    have h5 : ¬ e2.val = 0 := by omega
    rw [if_neg h5, h3, h4, Nat.add_sub_cancel]
    have h6 : 2 ^ e.val = 2 * 2 ^ (e.val - 1) := by
      rw [← pow_succ']; congr 1; omega
    rw [h6]; ring

theorem units_small (s : Bool) (e : Fin 2047) (f : Fin 4503599627370496)
    (h : e.val < 2046) : units (fin s e f) < 2 ^ 2097 := by
  rw [units_of_bits]
  have hf := f.isLt
  by_cases h0 : e.val = 0
  · rw [if_pos h0]
    have : (4503599627370496 : Nat) < 2 ^ 2097 := by norm_num
    omega
  · rw [if_neg h0]
    have h1 : 2 ^ (e.val - 1) ≤ 2 ^ 2044 := Nat.pow_le_pow_right (by norm_num) (by omega)
    have h2 : (4503599627370496 + f.val) * 2 ^ (e.val - 1) <
        (2 * 4503599627370496) * 2 ^ 2044 :=
      Nat.mul_lt_mul_of_lt_of_le (by omega) h1 (Nat.two_pow_pos _)
    have h3 : (2 * 4503599627370496) * 2 ^ 2044 = 2 ^ 2097 := by norm_num
    omega

theorem units_large (s : Bool) (e : Fin 2047) (f : Fin 4503599627370496)
    (h : e.val = 2046) : 2 ^ 2097 ≤ units (fin s e f) := by
  rw [units_of_bits]
  have h0 : ¬ e.val = 0 := by omega
  rw [if_neg h0, h]
  have h3 : 4503599627370496 * 2 ^ (2046 - 1) = 2 ^ 2097 := by norm_num
  rw [← h3]
  exact Nat.mul_le_mul_right _ (by omega)

theorem value_fin (s : Bool) (e : Fin 2047) (f : Fin 4503599627370496) :
    value (fin s e f) =
      some ((if s then -1 else 1) * (units (fin s e f) : ℚ) / 2 ^ 1074) := rfl

theorem abs_value (s : Bool) (u : Nat) :
    |(if s then -1 else 1) * (u : ℚ) / 2 ^ 1074| = (u : ℚ) / 2 ^ 1074 := by
  have hu : (0 : ℚ) ≤ (u : ℚ) / 2 ^ 1074 := by positivity
  cases s
  · simp only [Bool.false_eq_true, if_false, one_mul]
    exact abs_of_nonneg hu
  · simp only [if_true, neg_mul, one_mul, neg_div, abs_neg]
    exact abs_of_nonneg hu

theorem times_two_value (x : DCELL) (v : ℚ) (hv : value x = some v)
    (hlt : |v| < 2 ^ 1023) : value (times_two x) = some (2 * v) := by
  cases x with
  | nan => simp [value] at hv
  | inf s => simp [value] at hv
  | fin s e f =>
    rw [value_fin] at hv
    have hv' := Option.some.inj hv
    rw [← hv', abs_value] at hlt
    have he : e.val < 2046 := by
      by_contra hc
      have h6 : e.val = 2046 := by have := e.isLt; omega
      have hbig := units_large s e f h6
      have hbig' : ((2 : ℚ) ^ 2097) ≤ (units (fin s e f) : ℚ) := by exact_mod_cast hbig
      have hpos : (0 : ℚ) < 2 ^ 1074 := by positivity
      rw [div_lt_iff₀ hpos] at hlt
      have h7 : (2 : ℚ) ^ 1023 * 2 ^ 1074 = 2 ^ 2097 := by rw [← pow_add]
      rw [h7] at hlt
      exact absurd hlt (not_lt.mpr hbig')
    obtain ⟨e2, f2, h1, h2⟩ := times_two_units s e f he
    rw [h1, value_fin, h2, ← hv']
    congr 1
    push_cast
    ring

theorem times_two_value_overflow (x : DCELL) (v : ℚ) (hv : value x = some v)
    (hge : 2 ^ 1023 ≤ |v|) : times_two x = inf (decide (v < 0)) := by
  cases x with
  | nan => simp [value] at hv
  | inf s => simp [value] at hv
  | fin s e f =>
    rw [value_fin] at hv
    have hv' := Option.some.inj hv
    have hpos : (0 : ℚ) < 2 ^ 1074 := by positivity
    have he : e.val = 2046 := by
      by_contra hc
      have h6 : e.val < 2046 := by have := e.isLt; omega
      have hsmall := units_small s e f h6
      have hsmall' : (units (fin s e f) : ℚ) < (2 : ℚ) ^ 2097 := by exact_mod_cast hsmall
      rw [← hv', abs_value, le_div_iff₀ hpos] at hge
      have h7 : (2 : ℚ) ^ 1023 * 2 ^ 1074 = 2 ^ 2097 := by rw [← pow_add]
      rw [h7] at hge
      exact absurd hsmall' (not_lt.mpr hge)
    rw [times_two_overflow s e f he]
    have hu : (0 : ℚ) < (units (fin s e f) : ℚ) := by
      have := units_large s e f he
      have h2 : 0 < units (fin s e f) := lt_of_lt_of_le (Nat.two_pow_pos _) this
      exact_mod_cast h2
    have hq : (0 : ℚ) < (units (fin s e f) : ℚ) / 2 ^ 1074 := div_pos hu hpos
    cases s
    · have : ¬ v < 0 := by
        rw [← hv']; simp only [Bool.false_eq_true, if_false, one_mul]; exact not_lt.mpr hq.le
      simp [this]
    · have : v < 0 := by
        rw [← hv']; simp only [if_true, neg_mul, one_mul, neg_div]; linarith
      simp [this]

theorem times_two_zero (x : DCELL) (h : x.isZero = true) : times_two x = x := by
  cases x with
  | nan => simp [isZero] at h
  | inf s => simp [isZero] at h
  | fin s e f =>
    simp only [isZero, decide_eq_true_eq] at h
    obtain ⟨he, hf⟩ := h
    have hee : e = ⟨0, by decide⟩ := Fin.ext he
    have hff : f = ⟨0, by decide⟩ := Fin.ext hf
    subst hee hff
    rw [times_two_fin]
    cases s <;> decide

theorem ofBits_neg (s : Bool) (b : Nat) : ofBits (!s) b = neg (ofBits s b) := by
  unfold ofBits
  split <;> rfl

theorem times_two_neg (x : DCELL) : times_two (neg x) = neg (times_two x) := by
  cases x with
  | nan => simp [neg, times_two_nan]
  | inf s => simp [neg, times_two_inf]
  | fin s e f => simp only [neg, times_two_fin, ofBits_neg]

theorem units_eq_zero (s : Bool) (e : Fin 2047) (f : Fin 4503599627370496)
    (h : units (fin s e f) = 0) : isZero (fin s e f) = true := by
  rw [units_of_bits] at h
  by_cases h0 : e.val = 0
  · rw [if_pos h0] at h
    simp [isZero, h0, h]
  · rw [if_neg h0] at h
    have h1 := Nat.two_pow_pos (e.val - 1)
    have h2 : 0 < (4503599627370496 + f.val) * 2 ^ (e.val - 1) :=
      Nat.mul_pos (by omega) h1
    omega

theorem value_zero (x : DCELL) (h : value x = some 0) : isZero x = true := by
  cases x with
  | nan => simp [value] at h
  | inf s => simp [value] at h
  | fin s e f =>
    rw [value_fin] at h
    have h1 := Option.some.inj h
    have hpos : (2 : ℚ) ^ 1074 ≠ 0 := by positivity
    have h2 : (units (fin s e f) : ℚ) = 0 := by
      rw [div_eq_zero_iff] at h1
      rcases h1 with h1 | h1
      · cases s
        · simpa using h1
        · simpa using h1
      · exact absurd h1 hpos
    exact units_eq_zero s e f (by exact_mod_cast h2)

theorem value_neg (x : DCELL) (v : ℚ) (h : value x = some v) :
    value (neg x) = some (-v) := by
  cases x with
  | nan => simp [value] at h
  | inf s => simp [value] at h
  | fin s e f =>
    rw [value_fin] at h
    have h1 := Option.some.inj h
    have hu : units (fin (!s) e f) = units (fin s e f) := rfl
    rw [neg, value_fin, hu, ← h1]
    congr 1
    cases s
    · simp; ring
    · simp; ring

theorem bitLen_int (p : Nat) (hp0 : 0 < p) (hp : p < 2 ^ 53) :
    1 ≤ bitLen p p ∧ bitLen p p ≤ 53 ∧ 2 ^ (bitLen p p - 1) ≤ p ∧ p < 2 ^ bitLen p p := by
  obtain ⟨a, b⟩ := bitLen_bounds p p (Nat.lt_two_pow p)
  have b := b (by omega)
  have h1 : 1 ≤ bitLen p p := by
    by_contra hc
    have : bitLen p p = 0 := by omega
    rw [this] at a
    simp at a
    omega
  have h2 : bitLen p p ≤ 53 := by
    by_contra hc
    have : 2 ^ 53 ≤ 2 ^ (bitLen p p - 1) := Nat.pow_le_pow_right (by norm_num) (by omega)
    omega
  exact ⟨h1, h2, b, a⟩

theorem scaled_bounds (p L : Nat) (h1 : 1 ≤ L) (h2 : L ≤ 53) (hlo : 2 ^ (L - 1) ≤ p)
    (hhi : p < 2 ^ L) :
    4503599627370496 ≤ p * 2 ^ (53 - L) ∧ p * 2 ^ (53 - L) < 2 * 4503599627370496 := by
  have hpos : 0 < 2 ^ (53 - L) := Nat.two_pow_pos _
  constructor
  · have h3 : 2 ^ (L - 1) * 2 ^ (53 - L) = 4503599627370496 := by
      rw [← pow_add]
      have : L - 1 + (53 - L) = 52 := by omega
      rw [this]; norm_num
    rw [← h3]
    exact Nat.mul_le_mul_right _ hlo
  · have h3 : 2 ^ L * 2 ^ (53 - L) = 2 * 4503599627370496 := by
      rw [← pow_add]
      have : L + (53 - L) = 53 := by omega
      rw [this]; norm_num
    rw [← h3]
    exact Nat.mul_lt_mul_of_pos_right hhi hpos

theorem roundBits_int (p : Nat) (hp0 : 0 < p) (hp : p < 2 ^ 53) :
    roundBits p 1074 0 =
      (bitLen p p + 1021) * 4503599627370496 + p * 2 ^ (53 - bitLen p p) := by
  obtain ⟨h1, h2, _, _⟩ := bitLen_int p hp0 hp
  have hp' : p ≠ 0 := by omega
  have hd : max 0 (bitLen p p + 1074 - 53) = bitLen p p + 1021 := by omega
  have hn : p * 2 ^ 1074 = (p * 2 ^ (53 - bitLen p p)) * 2 ^ (bitLen p p + 1021) := by
    rw [Nat.mul_assoc, ← pow_add]
    have : 53 - bitLen p p + (bitLen p p + 1021) = 1074 := by omega
    rw [this]
  have hpos : 0 < 2 ^ (bitLen p p + 1021) := Nat.two_pow_pos _
  simp only [roundBits, hd, hn, hp', if_false, Nat.mul_mod_left,
    Nat.mul_div_cancel _ hpos, Nat.sub_zero]
  have h0 : ¬ (0 = 2 ^ (bitLen p p + 1021)) := by omega
  simp [h0]

theorem ofInt_fin (n : Int) (hn0 : n ≠ 0) (hn : n.natAbs < 2 ^ 53) :
    ∃ e f, ofInt n = fin (decide (n < 0)) e f ∧
      e.val = bitLen n.natAbs n.natAbs + 1022 ∧
      4503599627370496 + f.val = n.natAbs * 2 ^ (53 - bitLen n.natAbs n.natAbs) := by
  have hp0 : 0 < n.natAbs := Int.natAbs_pos.mpr hn0
  obtain ⟨h1, h2, h3, h4⟩ := bitLen_int n.natAbs hp0 hn
  obtain ⟨h5, h6⟩ := scaled_bounds n.natAbs _ h1 h2 h3 h4
  unfold ofInt
  rw [roundBits_int n.natAbs hp0 hn]
  generalize n.natAbs * 2 ^ (53 - bitLen n.natAbs n.natAbs) = X at h5 h6 ⊢
  generalize bitLen n.natAbs n.natAbs = L at h1 h2 ⊢
  have hb : (L + 1021) * 4503599627370496 + X < 2047 * 4503599627370496 := by omega
  simp only [ofBits, hb, dif_pos]
  refine ⟨_, _, rfl, ?_, ?_⟩
  · simp only []; omega
  · simp only []; omega

theorem times_two_ofInt (c : Int) (hc : c.natAbs < 2 ^ 52) :
    times_two (ofInt c) = ofInt (2 * c) := by
  by_cases h0 : c = 0
  · subst h0; decide
  · have hp0 : 0 < c.natAbs := Int.natAbs_pos.mpr h0
    have hc53 : c.natAbs < 2 ^ 53 := by
      have : (2 : Nat) ^ 53 = 2 * 2 ^ 52 := by norm_num
      omega
    have h2c0 : 2 * c ≠ 0 := by omega
    have habs : (2 * c).natAbs = 2 * c.natAbs := by omega
    have h2c : (2 * c).natAbs < 2 ^ 53 := by
      have : (2 : Nat) ^ 53 = 2 * 2 ^ 52 := by norm_num
      omega
    obtain ⟨e, f, ha, hb, hf⟩ := ofInt_fin c h0 hc53
    obtain ⟨e2, f2, ha2, hb2, hf2⟩ := ofInt_fin (2 * c) h2c0 h2c
    obtain ⟨h1, h2, h3, h4⟩ := bitLen_int c.natAbs hp0 hc53
    have hL52 : bitLen c.natAbs c.natAbs ≤ 52 := by
      by_contra hcon
      have : 2 ^ 52 ≤ 2 ^ (bitLen c.natAbs c.natAbs - 1) :=
        Nat.pow_le_pow_right (by norm_num) (by omega)
      omega
    have hL : bitLen (2 * c.natAbs) (2 * c.natAbs) = (bitLen c.natAbs c.natAbs - 1 + 1) + 1 := by
      apply bitLen_eq
      · rw [pow_succ]; omega
      · rw [pow_succ, pow_succ]
        have : bitLen c.natAbs c.natAbs - 1 + 1 = bitLen c.natAbs c.natAbs := by omega
        have h5 : 2 ^ (bitLen c.natAbs c.natAbs - 1) * 2 = 2 ^ bitLen c.natAbs c.natAbs := by
          rw [← pow_succ, this]
        omega
    have hL' : bitLen (2 * c.natAbs) (2 * c.natAbs) = bitLen c.natAbs c.natAbs + 1 := by omega
    rw [habs, hL'] at hb2 hf2
    have hX : 2 * c.natAbs * 2 ^ (53 - (bitLen c.natAbs c.natAbs + 1)) =
        c.natAbs * 2 ^ (53 - bitLen c.natAbs c.natAbs) := by
      have : 53 - bitLen c.natAbs c.natAbs = (53 - (bitLen c.natAbs c.natAbs + 1)) + 1 := by
        omega
      rw [this, pow_succ]; ring
    rw [hX] at hf2
    have hsign : decide (2 * c < 0) = decide (c < 0) := by
      by_cases hneg : c < 0
      · have : 2 * c < 0 := by omega
        simp [hneg, this]
      · have : ¬ 2 * c < 0 := by omega
        simp [hneg, this]
    rw [ha, ha2, hsign, times_two_fin]
    have he0 : ¬ e.val = 0 := by omega
    have hfl := f.isLt
    have hbnd : (e.val + 1) * 4503599627370496 + f.val < 2047 * 4503599627370496 := by omega
    simp only [he0, if_false, ofBits, hbnd, dif_pos]
    congr 1
    · apply Fin.ext; simp only []; omega
    · apply Fin.ext; simp only []; omega

theorem units_ofInt (n : Int) (hn : n.natAbs < 2 ^ 53) :
    ∃ e f, ofInt n = fin (decide (n < 0)) e f ∧
      units (fin (decide (n < 0)) e f) = n.natAbs * 2 ^ 1074 := by
  by_cases h0 : n = 0
  · subst h0
    exact ⟨⟨0, by decide⟩, ⟨0, by decide⟩, by decide, by simp [units, sig]⟩
  · obtain ⟨e, f, ha, hb, hf⟩ := ofInt_fin n h0 hn
    have hp0 : 0 < n.natAbs := Int.natAbs_pos.mpr h0
    obtain ⟨h1, h2, _, _⟩ := bitLen_int n.natAbs hp0 hn
    refine ⟨e, f, ha, ?_⟩
    rw [units_of_bits]
    have he0 : ¬ e.val = 0 := by omega
    rw [if_neg he0, hf, hb, Nat.mul_assoc, ← pow_add]
    have : 53 - bitLen n.natAbs n.natAbs + (bitLen n.natAbs n.natAbs + 1022 - 1) = 1074 := by
      omega
    rw [this]

theorem value_ofInt (n : Int) (hn : n.natAbs < 2 ^ 53) :
    value (ofInt n) = some (n : ℚ) := by
  obtain ⟨e, f, ha, hu⟩ := units_ofInt n hn
  rw [ha, value_fin, hu]
  congr 1
  have hpos : (2 : ℚ) ^ 1074 ≠ 0 := by positivity
  have hcast : ((n.natAbs * 2 ^ 1074 : ℕ) : ℚ) = (n.natAbs : ℚ) * 2 ^ 1074 := by
    rw [Nat.cast_mul, Nat.cast_pow, Nat.cast_ofNat]
  rw [hcast, ← mul_assoc, mul_div_assoc, div_self hpos, mul_one]
  by_cases hneg : n < 0
  · have h1 : n = -(n.natAbs : ℤ) := by omega
    have h2 : (n : ℚ) = -(n.natAbs : ℚ) := by exact_mod_cast congrArg (Int.cast : ℤ → ℚ) h1
    simp only [hneg, decide_True, if_true]
    rw [h2]; ring
  · simp only [hneg, decide_False, Bool.false_eq_true, if_false, one_mul]
    obtain ⟨k, hk⟩ := Int.eq_ofNat_of_zero_le (not_lt.mp hneg)
    rw [hk]
    simp

theorem ofInt_four : ofInt 4 = fin false ⟨1025, by decide⟩ ⟨0, by decide⟩ := by decide

theorem roundBits_four_small (f : Nat) (hf : f < 2251799813685248) :
    roundBits (4503599627370496 * f) 1024 1074 = 4 * f := by
  by_cases h0 : f = 0
  · subst h0; simp [roundBits]
  · have hp : 4503599627370496 * f ≠ 0 := by omega
    obtain ⟨a, b⟩ := bitLen_bounds (4503599627370496 * f) (4503599627370496 * f)
      (Nat.lt_two_pow _)
    have b := b hp
    have hbl : bitLen (4503599627370496 * f) (4503599627370496 * f) ≤ 103 := by
      by_contra hc
      have : 2 ^ 103 ≤ 2 ^ (bitLen (4503599627370496 * f) (4503599627370496 * f) - 1) :=
        Nat.pow_le_pow_right (by norm_num) (by omega)
      have h103 : (2:Nat) ^ 103 = 4503599627370496 * 2251799813685248 := by norm_num
      omega
    have hd : max 1074 (bitLen (4503599627370496 * f) (4503599627370496 * f) + 1024 - 53)
        = 1074 := by omega
    have hn : 4503599627370496 * f * 2 ^ 1024 = (4 * f) * 2 ^ 1074 := by
      have : (2:Nat) ^ 1074 = 2 ^ 50 * 2 ^ 1024 := by rw [← pow_add]
      rw [this]; ring
    simp only [roundBits, hd, hn, hp, if_false, Nat.mul_mod_left,
      Nat.mul_div_cancel _ (Nat.two_pow_pos 1074)]
    simp

theorem roundBits_four_large (f : Nat) (hlo : 2251799813685248 ≤ f)
    (hf : f < 4503599627370496) :
    roundBits (4503599627370496 * f) 1024 1074 = 4503599627370496 + 2 * f := by
  have hp : 4503599627370496 * f ≠ 0 := by omega
  have hbl : bitLen (4503599627370496 * f) (4503599627370496 * f) = 103 + 1 := by
    apply bitLen_eq
    · have : (2:Nat) ^ 103 = 4503599627370496 * 2251799813685248 := by norm_num
      omega
    · have : (2:Nat) ^ (103 + 1) = 4503599627370496 * 4503599627370496 := by norm_num
      omega
  have hd : max 1074 (103 + 1 + 1024 - 53) = 1075 := by omega
  have hn : 4503599627370496 * f * 2 ^ 1024 = (2 * f) * 2 ^ 1075 := by
    have : (2:Nat) ^ 1075 = 2 ^ 51 * 2 ^ 1024 := by rw [← pow_add]
    rw [this]; ring
  simp only [roundBits, hbl, hd, hn, hp, if_false, Nat.mul_mod_left,
    Nat.mul_div_cancel _ (Nat.two_pow_pos 1075)]
  simp

theorem roundBits_four_normal (f q : Nat) (hf : f < 4503599627370496) :
    roundBits (4503599627370496 * (4503599627370496 + f)) (1024 + q) 1074 =
      (q + 2) * 4503599627370496 + (4503599627370496 + f) := by
  have hp : 4503599627370496 * (4503599627370496 + f) ≠ 0 := by omega
  have hbl : bitLen (4503599627370496 * (4503599627370496 + f))
      (4503599627370496 * (4503599627370496 + f)) = 104 + 1 := by
    apply bitLen_eq
    · have : (2:Nat) ^ 104 = 4503599627370496 * 4503599627370496 := by norm_num
      omega
    · have : (2:Nat) ^ (104 + 1) = 4503599627370496 * (2 * 4503599627370496) := by norm_num
      omega
  have hd : max 1074 (104 + 1 + (1024 + q) - 53) = q + 1076 := by omega
  have hn : 4503599627370496 * (4503599627370496 + f) * 2 ^ (1024 + q) =
      (4503599627370496 + f) * 2 ^ (q + 1076) := by
    have : (2:Nat) ^ (q + 1076) = 2 ^ 52 * 2 ^ (1024 + q) := by
      rw [← pow_add]; congr 1; omega
    rw [this]; ring
  have hpos : 0 < 2 ^ (q + 1076) := Nat.two_pow_pos _
  simp only [roundBits, hbl, hd, hn, hp, if_false, Nat.mul_mod_left,
    Nat.mul_div_cancel _ hpos]
  have h2 : ¬ (0 = 2 ^ (q + 1076)) := by omega
  simp only [h2]
  simp

theorem mul_four_fin (s : Bool) (e : Fin 2047) (f : Fin 4503599627370496) :
    mul (ofInt 4) (fin s e f) =
      ofBits s (if e.val = 0 then
          (if f.val < 2251799813685248 then 4 * f.val else 4503599627370496 + 2 * f.val)
        else (e.val + 2) * 4503599627370496 + f.val) := by
  rw [ofInt_four]
  simp only [mul, sig, qexp, Bool.false_xor]
  have hsig : (if (1025 : Nat) = 0 then 0 else 4503599627370496 + 0) = 4503599627370496 := by
    norm_num
  rw [hsig]
  have hfl := f.isLt
  by_cases he : e.val = 0
  · simp only [he, if_true]
    have h1 : 1025 - 1 + (0 - 1) = 1024 := by norm_num
    rw [h1]
    by_cases hsm : f.val < 2251799813685248
    · rw [if_pos hsm, roundBits_four_small f.val hsm]
    · rw [if_neg hsm, roundBits_four_large f.val (by omega) hfl]
  · simp only [he, if_false]
    have h1 : 1025 - 1 + (e.val - 1) = 1024 + (e.val - 1) := by norm_num
    rw [h1, roundBits_four_normal f.val (e.val - 1) hfl]
    have h2 : (e.val - 1 + 2) * 4503599627370496 + (4503599627370496 + f.val) =
        (e.val + 2) * 4503599627370496 + f.val := by omega
    rw [h2]

theorem times_two_ofBits (s : Bool) (b : Nat) :
    times_two (ofBits s b) =
      ofBits s (if b < 4503599627370496 then 2 * b else b + 4503599627370496) := by
  by_cases hb : b < 2047 * 4503599627370496
  · have h1 : ofBits s b =
        fin s ⟨b / 4503599627370496, by omega⟩ ⟨b % 4503599627370496, by omega⟩ := by
      simp only [ofBits, hb, dif_pos]
    rw [h1, times_two_fin]
    simp only []
    by_cases hsm : b < 4503599627370496
    · have h2 : b / 4503599627370496 = 0 := by omega
      have h3 : b % 4503599627370496 = b := by omega
      rw [if_pos h2, if_pos hsm, h3]
    · have h2 : ¬ b / 4503599627370496 = 0 := by omega
      have h3 : (b / 4503599627370496 + 1) * 4503599627370496 + b % 4503599627370496 =
          b + 4503599627370496 := by omega
      rw [if_neg h2, if_neg hsm, h3]
  · have h1 : ofBits s b = inf s := by simp only [ofBits, hb, dif_neg, not_false_eq_true]
    have hsm : ¬ b < 4503599627370496 := by omega
    have h2 : ¬ (b + 4503599627370496 < 2047 * 4503599627370496) := by omega
    rw [h1, times_two_inf, if_neg hsm]
    simp only [ofBits, h2, dif_neg, not_false_eq_true]

theorem times_two_twice (x : DCELL) :
    times_two (times_two x) = DCELL.mul (DCELL.ofInt 4) x := by
  cases x with
  | nan => rw [times_two_nan, times_two_nan, ofInt_four]; rfl
  | inf s => rw [times_two_inf, times_two_inf, ofInt_four]; simp [mul]
  | fin s e f =>
    rw [times_two_fin, times_two_ofBits, mul_four_fin]
    have hfl := f.isLt
    by_cases he : e.val = 0
    · simp only [he, if_true]
      by_cases hsm : f.val < 2251799813685248
      · have h1 : 2 * f.val < 4503599627370496 := by omega
        rw [if_pos h1, if_pos hsm]
        have : 2 * (2 * f.val) = 4 * f.val := by omega
        rw [this]
      · have h1 : ¬ 2 * f.val < 4503599627370496 := by omega
        rw [if_neg h1, if_neg hsm]
        have : 2 * f.val + 4503599627370496 = 4503599627370496 + 2 * f.val := by omega
        rw [this]
    · simp only [he, if_false]
      have h1 : ¬ (e.val + 1) * 4503599627370496 + f.val < 4503599627370496 := by omega
      rw [if_neg h1]
      have : (e.val + 1) * 4503599627370496 + f.val + 4503599627370496 =
          (e.val + 2) * 4503599627370496 + f.val := by omega
      rw [this]

/-! ## The loops in closed form -/

theorem cell_step_input (col : Nat) (st : State) :
    (cell_step col st).input_buffer = st.input_buffer := by
  unfold cell_step; split <;> rfl

theorem cell_step_log (col : Nat) (st : State) :
    (cell_step col st).log = st.log ++ cell_events col (st.input_buffer col) := by
  unfold cell_step cell_events; split <;> simp_all

theorem cell_step_output (col : Nat) (st : State) :
    (cell_step col st).output_buffer =
      Function.update st.output_buffer col (cell_map (st.input_buffer col)) := by
  unfold cell_step cell_map
  split
  · rename_i h
    funext i
    simp only [Rast_set_d_null_value, h, if_true, Function.update_apply]
    by_cases hi : i = col
    · subst hi; simp
    · have : ¬ (col ≤ i ∧ i < col + 1) := by omega
      simp [this, hi]
  · rename_i h
    simp [h]

theorem col_loop_spec (n : Nat) (st : State) :
    ((List.range n).foldl (fun s i => cell_step i s) st).input_buffer = st.input_buffer ∧
    ((List.range n).foldl (fun s i => cell_step i s) st).output_buffer =
      (fun c => if c < n then cell_map (st.input_buffer c) else st.output_buffer c) ∧
    ((List.range n).foldl (fun s i => cell_step i s) st).log =
      st.log ++ (List.range n).flatMap (fun c => cell_events c (st.input_buffer c)) := by
  induction n with
  | zero => simp
  | succ n ih =>
    obtain ⟨h1, h2, h3⟩ := ih
    rw [List.range_succ, List.foldl_append]
    simp only [List.foldl_cons, List.foldl_nil]
    refine ⟨?_, ?_, ?_⟩
    · rw [cell_step_input, h1]
    · rw [cell_step_output, h1, h2]
      funext c
      simp only [Function.update_apply]
      by_cases hc : c = n
      · subst hc; simp
      · by_cases hlt : c < n
        · have : c < n + 1 := by omega
          simp [hc, hlt, this]
        · have : ¬ c < n + 1 := by omega
          simp [hc, hlt, this]
    · rw [cell_step_log, h1, h3]
      simp [List.flatMap_append]

theorem row_step_log (w : World) (input_fd output_fd : Int) (row : Nat) (st : State) :
    (row_step w input_fd output_fd w.Rast_window_rows w.Rast_window_cols row st).log =
      st.log ++ row_events w input_fd output_fd row := by
  unfold row_step for_loop
  simp only []
  obtain ⟨h1, h2, h3⟩ := col_loop_spec w.Rast_window_cols.toNat
    { input_buffer := fun col =>
        if (col : Int) < w.Rast_window_cols then w.Rast_get_d_row input_fd row col
        else st.input_buffer col
      output_buffer := st.output_buffer
      log := st.log ++ [Event.G_percent row w.Rast_window_rows 10] ++
        [Event.Rast_get_d_row input_fd row] }
  rw [h2, h3]
  have hin : ∀ c ∈ List.range w.Rast_window_cols.toNat,
      (if (c : Int) < w.Rast_window_cols then w.Rast_get_d_row input_fd row c
        else st.input_buffer c) = w.Rast_get_d_row input_fd row c := by
    intro c hc
    have hc' : c < w.Rast_window_cols.toNat := List.mem_range.mp hc
    have : (c : Int) < w.Rast_window_cols := by omega
    simp [this]
  have hflat : (List.range w.Rast_window_cols.toNat).flatMap
      (fun c => cell_events c
        (if (c : Int) < w.Rast_window_cols then w.Rast_get_d_row input_fd row c
          else st.input_buffer c)) =
      (List.range w.Rast_window_cols.toNat).flatMap
        (fun c => cell_events c (w.Rast_get_d_row input_fd row c)) := by
    simp only [List.flatMap]
    congr 1
    apply List.map_congr_left
    intro c hc
    rw [hin c hc]
  have hmap : (List.range w.Rast_window_cols.toNat).map
      (fun c => if c < w.Rast_window_cols.toNat then
          cell_map (if (c : Int) < w.Rast_window_cols then w.Rast_get_d_row input_fd row c
            else st.input_buffer c)
        else st.output_buffer c) =
      (input_row w input_fd row).map cell_map := by
    unfold input_row
    rw [List.map_map]
    apply List.map_congr_left
    intro c hc
    have hc' : c < w.Rast_window_cols.toNat := List.mem_range.mp hc
    simp [hc', hin c hc]
  simp only [hflat, hmap, row_events, List.append_assoc, List.cons_append, List.nil_append]

theorem row_loop_log (w : World) (input_fd output_fd : Int) (st : State) :
    (row_loop w input_fd output_fd w.Rast_window_rows w.Rast_window_cols st).log =
      st.log ++ (List.range w.Rast_window_rows.toNat).flatMap
        (row_events w input_fd output_fd) := by
  unfold row_loop for_loop
  generalize w.Rast_window_rows.toNat = n
  induction n with
  | zero => simp
  | succ n ih =>
    rw [List.range_succ, List.foldl_append]
    simp only [List.foldl_cons, List.foldl_nil]
    rw [row_step_log, ih]
    simp [List.flatMap_append]

theorem main_ok (w : World) (input_fd output_fd : Int) (hp : w.G_parser_result = 0)
    (hi : w.Rast_open_old w.input_answer = some input_fd)
    (ho : w.Rast_open_new w.output_answer (w.Rast_map_type w.input_answer) = some output_fd) :
    (main w).log = setup w ++
      (List.range w.Rast_window_rows.toNat).flatMap (row_events w input_fd output_fd) ++
      epilogue w input_fd output_fd ∧
    (main w).status = EXIT_SUCCESS := by
  unfold main
  simp only [hp, ne_eq, not_true_eq_false, if_false, hi, ho]
  rw [row_loop_log]
  simp [setup, epilogue]

theorem written_rows_append (a b : List Event) :
    written_rows (a ++ b) = written_rows a ++ written_rows b := by
  simp [written_rows, List.filterMap_append]

theorem times_two_calls_append (a b : List Event) :
    times_two_calls (a ++ b) = times_two_calls a ++ times_two_calls b := by
  simp [times_two_calls, List.filterMap_append]

theorem raster_io_append (a b : List Event) :
    raster_io (a ++ b) = raster_io a ++ raster_io b := by
  simp [raster_io, List.filter_append]

theorem written_rows_flatMap {α : Type} (l : List α) (f : α → List Event) :
    written_rows (l.flatMap f) = l.flatMap (fun x => written_rows (f x)) := by
  induction l with
  | nil => simp [written_rows]
  | cons x xs ih => simp [List.flatMap_cons, written_rows_append, ih]

theorem times_two_calls_flatMap {α : Type} (l : List α) (f : α → List Event) :
    times_two_calls (l.flatMap f) = l.flatMap (fun x => times_two_calls (f x)) := by
  induction l with
  | nil => simp [times_two_calls]
  | cons x xs ih => simp [List.flatMap_cons, times_two_calls_append, ih]

theorem raster_io_flatMap {α : Type} (l : List α) (f : α → List Event) :
    raster_io (l.flatMap f) = l.flatMap (fun x => raster_io (f x)) := by
  induction l with
  | nil => simp [raster_io]
  | cons x xs ih => simp [List.flatMap_cons, raster_io_append, ih]

theorem written_rows_cells (l : List Nat) (g : Nat → DCELL) :
    written_rows (l.flatMap (fun col => cell_events col (g col))) = [] := by
  rw [written_rows_flatMap]
  induction l with
  | nil => rfl
  | cons x xs ih =>
    simp only [List.flatMap_cons, ih, List.append_nil]
    unfold cell_events written_rows
    split <;> simp

theorem raster_io_cells (l : List Nat) (g : Nat → DCELL) :
    raster_io (l.flatMap (fun col => cell_events col (g col))) = [] := by
  rw [raster_io_flatMap]
  induction l with
  | nil => rfl
  | cons x xs ih =>
    simp only [List.flatMap_cons, ih, List.append_nil]
    unfold cell_events raster_io
    split <;> simp

theorem times_two_calls_cells (l : List Nat) (g : Nat → DCELL) :
    times_two_calls (l.flatMap (fun col => cell_events col (g col))) =
      (l.map g).filter (fun v => !Rast_is_d_null_value v) := by
  rw [times_two_calls_flatMap]
  induction l with
  | nil => rfl
  | cons x xs ih =>
    simp only [List.flatMap_cons, ih, List.map_cons, List.filter_cons]
    unfold cell_events times_two_calls
    cases h : Rast_is_d_null_value (g x) <;> simp

theorem written_rows_row_events (w : World) (input_fd output_fd : Int) (row : Nat) :
    written_rows (row_events w input_fd output_fd row) =
      [(input_row w input_fd row).map cell_map] := by
  unfold row_events
  rw [written_rows_append, written_rows_append, written_rows_cells]
  simp [written_rows]

theorem raster_io_row_events (w : World) (input_fd output_fd : Int) (row : Nat) :
    raster_io (row_events w input_fd output_fd row) =
      [Event.Rast_get_d_row input_fd row,
       Event.Rast_put_d_row output_fd ((input_row w input_fd row).map cell_map)] := by
  unfold row_events
  rw [raster_io_append, raster_io_append, raster_io_cells]
  simp [raster_io]

theorem times_two_calls_row_events (w : World) (input_fd output_fd : Int) (row : Nat) :
    times_two_calls (row_events w input_fd output_fd row) =
      (input_row w input_fd row).filter (fun v => !Rast_is_d_null_value v) := by
  unfold row_events
  rw [times_two_calls_append, times_two_calls_append, times_two_calls_cells]
  simp [times_two_calls, input_row]

theorem flatMap_single {α β : Type} (l : List α) (f : α → β) :
    l.flatMap (fun x => [f x]) = l.map f := by
  induction l with
  | nil => rfl
  | cons x xs ih => simp [List.flatMap_cons, ih]

theorem main_written_rows (w : World) (input_fd output_fd : Int) (hp : w.G_parser_result = 0)
    (hi : w.Rast_open_old w.input_answer = some input_fd)
    (ho : w.Rast_open_new w.output_answer (w.Rast_map_type w.input_answer) = some output_fd) :
    written_rows (main w).log =
      (List.range w.Rast_window_rows.toNat).map
        (fun row => (input_row w input_fd row).map cell_map) := by
  rw [(main_ok w input_fd output_fd hp hi ho).1, written_rows_append, written_rows_append,
    written_rows_flatMap]
  have h1 : written_rows (setup w) = [] := by simp [setup, prologue, written_rows]
  have h2 : written_rows (epilogue w input_fd output_fd) = [] := by
    simp [epilogue, written_rows]
  rw [h1, h2]
  simp only [written_rows_row_events, List.nil_append, List.append_nil]
  exact flatMap_single _ _

theorem ofBits_not_null (s : Bool) (b : Nat) :
    Rast_is_d_null_value (ofBits s b) = false := by
  unfold ofBits
  split <;> rfl

theorem times_two_null (v : DCELL) :
    Rast_is_d_null_value (times_two v) = Rast_is_d_null_value v := by
  cases v with
  | nan => rw [times_two_nan]
  | inf s => rw [times_two_inf]
  | fin s e f => rw [times_two_fin, ofBits_not_null]; rfl

theorem main_raster_io (w : World) (input_fd output_fd : Int) (hp : w.G_parser_result = 0)
    (hi : w.Rast_open_old w.input_answer = some input_fd)
    (ho : w.Rast_open_new w.output_answer (w.Rast_map_type w.input_answer) = some output_fd) :
    raster_io (main w).log =
      (List.range w.Rast_window_rows.toNat).flatMap (fun row =>
        [Event.Rast_get_d_row input_fd row,
         Event.Rast_put_d_row output_fd ((input_row w input_fd row).map cell_map)]) := by
  rw [(main_ok w input_fd output_fd hp hi ho).1, raster_io_append, raster_io_append,
    raster_io_flatMap]
  have h1 : raster_io (setup w) = [] := by simp [setup, prologue, raster_io]
  have h2 : raster_io (epilogue w input_fd output_fd) = [] := by
    simp [epilogue, raster_io]
  rw [h1, h2]
  simp only [raster_io_row_events, List.nil_append, List.append_nil]

theorem main_times_two_calls (w : World) (input_fd output_fd : Int) (hp : w.G_parser_result = 0)
    (hi : w.Rast_open_old w.input_answer = some input_fd)
    (ho : w.Rast_open_new w.output_answer (w.Rast_map_type w.input_answer) = some output_fd) :
    times_two_calls (main w).log =
      (List.range w.Rast_window_rows.toNat).flatMap (fun row =>
        (input_row w input_fd row).filter (fun v => !Rast_is_d_null_value v)) := by
  rw [(main_ok w input_fd output_fd hp hi ho).1, times_two_calls_append,
    times_two_calls_append, times_two_calls_flatMap]
  have h1 : times_two_calls (setup w) = [] := by simp [setup, prologue, times_two_calls]
  have h2 : times_two_calls (epilogue w input_fd output_fd) = [] := by
    simp [epilogue, times_two_calls]
  rw [h1, h2]
  simp only [times_two_calls_row_events, List.nil_append, List.append_nil]

theorem filter_flatMap {α β : Type} (l : List α) (f : α → List β) (p : β → Bool) :
    (l.flatMap f).filter p = l.flatMap (fun x => (f x).filter p) := by
  induction l with
  | nil => rfl
  | cons x xs ih => simp [List.flatMap_cons, List.filter_append, ih]

theorem open_new_types_append (a b : List Event) :
    open_new_types (a ++ b) = open_new_types a ++ open_new_types b := by
  simp [open_new_types, List.filterMap_append]

theorem open_new_types_row_events (w : World) (input_fd output_fd : Int) (l : List Nat) :
    open_new_types (l.flatMap (row_events w input_fd output_fd)) = [] := by
  induction l with
  | nil => rfl
  | cons x xs ih =>
    rw [List.flatMap_cons, open_new_types_append, ih, List.append_nil]
    unfold row_events
    rw [open_new_types_append, open_new_types_append]
    have hc : ∀ cols : List Nat, open_new_types
        (cols.flatMap (fun col => cell_events col (w.Rast_get_d_row input_fd x col))) = [] := by
      intro cols
      induction cols with
      | nil => rfl
      | cons c cs ihc =>
        rw [List.flatMap_cons, open_new_types_append, ihc, List.append_nil]
        unfold cell_events open_new_types
        split <;> simp
    rw [hc]
    simp [open_new_types]

theorem cell_at_map (R C : Nat) (g : Nat → Nat → DCELL) (row col : Nat)
    (hr : row < R) (hc : col < C) :
    cell_at ((List.range R).map (fun r => (List.range C).map (fun c => g r c))) row col =
      g row col := by
  simp [cell_at, List.getD_eq_getElem?_getD, hr, hc]

theorem cell_map_twice (v : DCELL) :
    cell_map (cell_map v) =
      if Rast_is_d_null_value v then DCELL.nan else times_two (times_two v) := by
  cases h : Rast_is_d_null_value v
  · have h2 : Rast_is_d_null_value (times_two v) = false := by rw [times_two_null, h]
    simp [cell_map, h, h2]
  · cases v with
    | nan => rfl
    | inf s => simp [Rast_is_d_null_value] at h
    | fin s e f => simp [Rast_is_d_null_value] at h

theorem main_written_cell (w : World) (input_fd output_fd : Int)
    (hp : w.G_parser_result = 0)
    (hi : w.Rast_open_old w.input_answer = some input_fd)
    (ho : w.Rast_open_new w.output_answer (w.Rast_map_type w.input_answer) = some output_fd)
    (row col : Nat) (hr : row < w.Rast_window_rows.toNat)
    (hc : col < w.Rast_window_cols.toNat) :
    cell_at (written_rows (main w).log) row col =
      cell_map (w.Rast_get_d_row input_fd row col) := by
  rw [main_written_rows w input_fd output_fd hp hi ho]
  simp only [input_row, List.map_map, Function.comp_def]
  exact cell_at_map _ _ (fun r c => cell_map (w.Rast_get_d_row input_fd r c)) row col hr hc

theorem cell_map_ofInt (c : Int) (hc : c.natAbs < 2 ^ 52) :
    cell_map (ofInt c) = ofInt (2 * c) := by
  have hn : Rast_is_d_null_value (ofInt c) = false := by
    unfold ofInt; exact ofBits_not_null _ _
  unfold cell_map
  rw [hn]
  simp only [Bool.false_eq_true, if_false]
  exact times_two_ofInt c hc

theorem cell_map_value (x : DCELL) (v : ℚ) (hv : value x = some v)
    (hlt : |v| < 2 ^ 1023) : value (cell_map x) = some (2 * v) := by
  have hn : Rast_is_d_null_value x = false := by
    cases x with
    | nan => simp [value] at hv
    | inf s => rfl
    | fin s e f => rfl
  unfold cell_map
  rw [hn]
  simp only [Bool.false_eq_true, if_false]
  exact times_two_value x v hv hlt

theorem cell_map_of_value (x : DCELL) (v : ℚ) (hv : value x = some v) :
    cell_map x = times_two x := by
  cases x with
  | nan => simp [value] at hv
  | inf s => rfl
  | fin s e f => rfl

theorem cell_map_inf (s : Bool) : cell_map (inf s) = inf s := by
  have h : cell_map (inf s) = times_two (inf s) := rfl
  rw [h, times_two_inf]

theorem times_two_twice_overflow (x : DCELL) (v : ℚ) (hv : value x = some v)
    (hge : 2 ^ 1022 ≤ |v|) : times_two (times_two x) = inf (decide (v < 0)) := by
  by_cases h : |v| < 2 ^ 1023
  · have h2 := times_two_value x v hv h
    have h3 : (2 : ℚ) ^ 1023 ≤ |2 * v| := by
      rw [abs_mul, abs_two]
      have : (2 : ℚ) ^ 1023 = 2 * 2 ^ 1022 := by norm_num
      linarith
    rw [times_two_value_overflow (times_two x) (2 * v) h2 h3]
    by_cases hneg : v < 0
    · have : 2 * v < 0 := by linarith
      simp [hneg, this]
    · have : ¬ 2 * v < 0 := by linarith
      simp [hneg, this]
  · rw [times_two_value_overflow x v hv (not_lt.mp h), times_two_inf]

/-! ## The claims -/

/-- C1: in a run whose command line parses and whose two maps open, the rows written
are exactly the rows read, mapped cell by cell: the null marker where the input cell is
the null marker, `times_two` of the input cell otherwise.  This holds for every content
of the two freshly allocated buffers, so nothing left in the output buffer by an earlier
row shows up in a later one. -/
theorem C1_driver_maps_every_cell (w : World) (input_fd output_fd : Int)
    (hp : w.G_parser_result = 0)
    (hi : w.Rast_open_old w.input_answer = some input_fd)
    (ho : w.Rast_open_new w.output_answer (w.Rast_map_type w.input_answer) = some output_fd) :
    written_rows (main w).log =
      (List.range w.Rast_window_rows.toNat).map (fun (row : Nat) =>
        (List.range w.Rast_window_cols.toNat).map (fun (col : Nat) =>
          if Rast_is_d_null_value (w.Rast_get_d_row input_fd row col) then DCELL.nan
          else times_two (w.Rast_get_d_row input_fd row col))) := by
  rw [main_written_rows w input_fd output_fd hp hi ho]
  simp [input_row, cell_map, Function.comp_def]

/-- C1, on the raster `[[1.0, null], [3.0, 4.0]]` with both buffers full of stale 7.0:
the output is `[[2.0, null], [6.0, 8.0]]`. -/
theorem C1_driver_maps_every_cell_witness :
    written_rows
        (main (world_on [[DCELL.ofInt 1, DCELL.nan], [DCELL.ofInt 3, DCELL.ofInt 4]] 2 2
          (DCELL.ofInt 7))).log =
      [[DCELL.ofInt 2, DCELL.nan], [DCELL.ofInt 6, DCELL.ofInt 8]] :=
  (C1_driver_maps_every_cell
    (world_on [[DCELL.ofInt 1, DCELL.nan], [DCELL.ofInt 3, DCELL.ofInt 4]] 2 2
      (DCELL.ofInt 7)) 3 4 rfl rfl rfl).trans (by decide)

/-- C3, as stated, fails for the integer storage type: in a run on an integer map (the
output is opened with `CELL_TYPE`) whose one cell holds `2^30`, a value that a 32-bit
integer cell holds, the driver hands the double of `2^31` to `Rast_put_d_row`, and no
32-bit integer cell has that value, whatever the library stores. -/
theorem C3_counterexample :
    fits_CELL 1073741824 = true ∧
    open_new_types (main (world_on_integer_map [[1073741824]] 1 1 DCELL.nan)).log =
      [RASTER_MAP_TYPE.CELL_TYPE] ∧
    written_rows (main (world_on_integer_map [[1073741824]] 1 1 DCELL.nan)).log =
      [[DCELL.ofInt (2 * 1073741824)]] ∧
    DCELL.value
        (cell_at (written_rows (main (world_on_integer_map [[1073741824]] 1 1 DCELL.nan)).log)
          0 0) = some (2 * 1073741824) ∧
    ¬ ∃ stored : Int, fits_CELL stored = true ∧
        DCELL.value
          (cell_at
            (written_rows (main (world_on_integer_map [[1073741824]] 1 1 DCELL.nan)).log)
            0 0) = some (stored : ℚ) := by
  have hcell : cell_at
      (written_rows (main (world_on_integer_map [[1073741824]] 1 1 DCELL.nan)).log) 0 0 =
      DCELL.ofInt 2147483648 := by decide
  have hval : DCELL.value (DCELL.ofInt 2147483648) = some (2147483648 : ℚ) := by
    have h := value_ofInt 2147483648 (by norm_num)
    simpa using h
  refine ⟨by decide, by decide, by decide, ?_, ?_⟩
  · rw [hcell, hval]; norm_num
  · rintro ⟨stored, hfit, hst⟩
    rw [hcell, hval] at hst
    have h1 : ((2147483648 : Int) : ℚ) = (stored : ℚ) := by
      have := Option.some.inj hst
      push_cast
      exact this
    have h2 : (2147483648 : Int) = stored := Int.cast_injective h1
    subst h2
    simp [fits_CELL] at hfit

/-- C3, amended: in a run whose command line parses and whose two maps open, the cell
handed to `Rast_put_d_row` at a place of the region is twice the input cell that the read
delivered, formed in `double` without rounding: for a finite input of value `v` it has
the value `2 * v` when `|v| < 2^1023` and is the infinity of the sign of `v` when
`2^1023 ≤ |v|`; an infinite input is handed on unchanged; for an input that is the double
of an integer `c` with `|c| < 2^52` it is the double of `2 * c`, of value `2 * c`.  For
such an integer input and a storage range from `lo` to `hi` that does not hold `2 * c`,
no integer of the range has the value of the cell handed over. -/
theorem C3_cell_handed_to_library_is_twice_the_input (w : World) (input_fd output_fd : Int)
    (hp : w.G_parser_result = 0)
    (hi : w.Rast_open_old w.input_answer = some input_fd)
    (ho : w.Rast_open_new w.output_answer (w.Rast_map_type w.input_answer) = some output_fd)
    (row col : Nat) (hr : row < w.Rast_window_rows.toNat)
    (hc : col < w.Rast_window_cols.toNat) :
    (∀ v : ℚ, DCELL.value (w.Rast_get_d_row input_fd row col) = some v → |v| < 2 ^ 1023 →
        DCELL.value (cell_at (written_rows (main w).log) row col) = some (2 * v)) ∧
      (∀ v : ℚ, DCELL.value (w.Rast_get_d_row input_fd row col) = some v → 2 ^ 1023 ≤ |v| →
        cell_at (written_rows (main w).log) row col = DCELL.inf (decide (v < 0))) ∧
      (∀ s : Bool, w.Rast_get_d_row input_fd row col = DCELL.inf s →
        cell_at (written_rows (main w).log) row col = DCELL.inf s) ∧
      (∀ c : Int, c.natAbs < 2 ^ 52 → w.Rast_get_d_row input_fd row col = DCELL.ofInt c →
        cell_at (written_rows (main w).log) row col = DCELL.ofInt (2 * c) ∧
        DCELL.value (cell_at (written_rows (main w).log) row col) = some (2 * (c : ℚ))) ∧
      (∀ lo hi c : Int, c.natAbs < 2 ^ 52 →
        w.Rast_get_d_row input_fd row col = DCELL.ofInt c → (2 * c < lo ∨ hi < 2 * c) →
        ∀ stored : Int, lo ≤ stored → stored ≤ hi →
          DCELL.value (cell_at (written_rows (main w).log) row col) ≠ some (stored : ℚ)) := by
  rw [main_written_cell w input_fd output_fd hp hi ho row col hr hc]
  have hint : ∀ c : Int, c.natAbs < 2 ^ 52 →
      w.Rast_get_d_row input_fd row col = DCELL.ofInt c →
      cell_map (w.Rast_get_d_row input_fd row col) = DCELL.ofInt (2 * c) ∧
      DCELL.value (cell_map (w.Rast_get_d_row input_fd row col)) = some (2 * (c : ℚ)) := by
    intro c h52 hcell
    have h53 : (2 * c).natAbs < 2 ^ 53 := by
      have h1 : (2 : Nat) ^ 53 = 2 * 2 ^ 52 := by norm_num
      have h2 : (2 * c).natAbs = 2 * c.natAbs := by omega
      omega
    have h1 : cell_map (w.Rast_get_d_row input_fd row col) = DCELL.ofInt (2 * c) := by
      rw [hcell]; exact cell_map_ofInt c h52
    refine ⟨h1, ?_⟩
    rw [h1, value_ofInt (2 * c) h53]
    push_cast
    rfl
  refine ⟨?_, ?_, ?_, hint, ?_⟩
  · intro v hv hlt
    exact cell_map_value _ v hv hlt
  · intro v hv hge
    rw [cell_map_of_value _ v hv]
    exact times_two_value_overflow _ v hv hge
  · intro s hs
    rw [hs, cell_map_inf]
  · intro lo hi c h52 hcell hout stored hlo hhi heq
    rw [(hint c h52 hcell).2] at heq
    have h1 : ((2 * c : Int) : ℚ) = (stored : ℚ) := by
      have := Option.some.inj heq
      push_cast
      exact this
    have h2 : 2 * c = stored := Int.cast_injective h1
    omega

/-- C3, amended, on the integer map holding the one cell 5: the cell handed to the library
is the double of 10, of value 10; and on the integer map holding `2^30`, no integer from
`-2^31` to `2^31 - 1` has the value of the cell handed over. -/
theorem C3_cell_handed_to_library_is_twice_the_input_witness :
    (cell_at (written_rows (main (world_on_integer_map [[5]] 1 1 DCELL.nan)).log) 0 0 =
        DCELL.ofInt (2 * 5) ∧
      DCELL.value
          (cell_at (written_rows (main (world_on_integer_map [[5]] 1 1 DCELL.nan)).log) 0 0) =
        some (2 * ((5 : Int) : ℚ))) ∧
    (∀ stored : Int, -2147483648 ≤ stored → stored ≤ 2147483647 →
      DCELL.value
          (cell_at
            (written_rows (main (world_on_integer_map [[1073741824]] 1 1 DCELL.nan)).log)
            0 0) ≠ some (stored : ℚ)) :=
  ⟨(C3_cell_handed_to_library_is_twice_the_input (world_on_integer_map [[5]] 1 1 DCELL.nan)
      3 4 rfl rfl rfl 0 0 (by decide) (by decide)).2.2.2.1 5 (by norm_num) (by decide),
   (C3_cell_handed_to_library_is_twice_the_input
      (world_on_integer_map [[1073741824]] 1 1 DCELL.nan)
      3 4 rfl rfl rfl 0 0 (by decide) (by decide)).2.2.2.2
      (-2147483648) 2147483647 1073741824 (by norm_num) (by decide)
      (Or.inr (by norm_num))⟩

/-- C4: the storage types with which a run calls `Rast_open_new` are: the answer of
`Rast_map_type` on the input name, once and unchanged, when the command line parses and
the input map opens; none otherwise. -/
theorem C4_output_type_is_queried_type (w : World) :
    open_new_types (main w).log =
      if w.G_parser_result = 0 ∧ (w.Rast_open_old w.input_answer).isSome = true then
        [w.Rast_map_type w.input_answer]
      else [] := by
  unfold main
  by_cases hp : w.G_parser_result = 0
  · simp only [hp, ne_eq, not_true_eq_false, if_false, true_and]
    cases hi : w.Rast_open_old w.input_answer with
    | none => simp [fatal, prologue, open_new_types]
    | some input_fd =>
      cases ho : w.Rast_open_new w.output_answer (w.Rast_map_type w.input_answer) with
      | none => simp [fatal, prologue, open_new_types]
      | some output_fd =>
        simp only [Option.isSome_some, if_true]
        rw [row_loop_log]
        simp only [open_new_types_append, open_new_types_row_events]
        simp [prologue, open_new_types]
  · simp [hp, prologue, open_new_types]

/-- C5, as stated, fails: a raster of 2 rows by 2 columns read through a region of 1 row
by 1 column gives an output of 1 row by 1 column. -/
theorem C5_counterexample :
    ([[DCELL.ofInt 1, DCELL.ofInt 2], [DCELL.ofInt 3, DCELL.ofInt 4]].map List.length
        = [2, 2]) ∧
    (written_rows
        (main (world_on [[DCELL.ofInt 1, DCELL.ofInt 2], [DCELL.ofInt 3, DCELL.ofInt 4]]
          1 1 (DCELL.ofInt 7))).log).map List.length = [1] := by
  decide

/-- C5, amended: in a run whose command line parses and whose two maps open, the output
raster has the dimensions of the computational region: `Rast_window_rows` rows are
written, each of `Rast_window_cols` cells, whatever the input raster holds. -/
theorem C5_output_has_region_dimensions (w : World) (input_fd output_fd : Int)
    (hp : w.G_parser_result = 0)
    (hi : w.Rast_open_old w.input_answer = some input_fd)
    (ho : w.Rast_open_new w.output_answer (w.Rast_map_type w.input_answer) = some output_fd) :
    (written_rows (main w).log).length = w.Rast_window_rows.toNat ∧
      (written_rows (main w).log).map List.length =
        List.replicate w.Rast_window_rows.toNat w.Rast_window_cols.toNat := by
  rw [main_written_rows w input_fd output_fd hp hi ho]
  constructor
  · simp
  · simp [input_row, Function.comp_def, List.map_const']

/-- C5, amended, on a 2 by 2 raster read through a region of 3 rows by 1 column: three
rows of one cell are written. -/
theorem C5_output_has_region_dimensions_witness :
    (written_rows
        (main (world_on [[DCELL.ofInt 1, DCELL.ofInt 2], [DCELL.ofInt 3, DCELL.ofInt 4]]
          3 1 (DCELL.ofInt 7))).log).length = 3 ∧
    (written_rows
        (main (world_on [[DCELL.ofInt 1, DCELL.ofInt 2], [DCELL.ofInt 3, DCELL.ofInt 4]]
          3 1 (DCELL.ofInt 7))).log).map List.length = [1, 1, 1] :=
  C5_output_has_region_dimensions
    (world_on [[DCELL.ofInt 1, DCELL.ofInt 2], [DCELL.ofInt 3, DCELL.ofInt 4]] 3 1
      (DCELL.ofInt 7)) 3 4 rfl rfl rfl

/-- C6, as stated, fails: the largest finite `double`, `2^1024 - 2^971`, is sent to
positive infinity, not to twice its value. -/
theorem C6_counterexample :
    DCELL.isFinite DCELL.DBL_MAX = true ∧
    DCELL.value DCELL.DBL_MAX = some (2 ^ 1024 - 2 ^ 971) ∧
    times_two DCELL.DBL_MAX = DCELL.inf false ∧
    DCELL.value (times_two DCELL.DBL_MAX) ≠ some (2 * (2 ^ 1024 - 2 ^ 971)) := by
  have h3 : times_two DCELL.DBL_MAX = DCELL.inf false := by decide
  refine ⟨rfl, ?_, h3, ?_⟩
  · norm_num [DCELL.value, DCELL.units, DCELL.sig, DCELL.qexp, DCELL.DBL_MAX]
  · rw [h3]; simp [DCELL.value]

/-- C6, amended: for every finite `x` of value `v`, `times_two x` has the value `2 * v`
exactly when `|v| < 2^1023`, and is the infinity of the sign of `x` when
`2^1023 ≤ |v|`; a zero of either sign is returned unchanged; and `times_two (-x)` is
`-(times_two x)`, where `-x` has the value `-v`. -/
theorem C6_times_two_exact_below_overflow (x : DCELL) (v : ℚ)
    (hv : DCELL.value x = some v) :
    (|v| < 2 ^ 1023 → DCELL.value (times_two x) = some (2 * v)) ∧
      (2 ^ 1023 ≤ |v| → times_two x = DCELL.inf (decide (v < 0))) ∧
      (v = 0 → times_two x = x) ∧
      times_two (DCELL.neg x) = DCELL.neg (times_two x) ∧
      DCELL.value (DCELL.neg x) = some (-v) := by
  refine ⟨times_two_value x v hv, times_two_value_overflow x v hv, ?_, times_two_neg x,
    value_neg x v hv⟩
  intro h0
  subst h0
  exact times_two_zero x (value_zero x hv)

/-- C6, amended, at `x = 3.0`: `times_two 3.0` has the value 6. -/
theorem C6_times_two_exact_below_overflow_witness :
    DCELL.value (DCELL.ofInt 3) = some 3 ∧
    DCELL.value (times_two (DCELL.ofInt 3)) = some (2 * 3) :=
  have hv : DCELL.value (DCELL.ofInt 3) = some 3 := by
    have h : DCELL.ofInt 3 = DCELL.fin false ⟨1024, by decide⟩ ⟨2251799813685248, by decide⟩ := by
      decide
    rw [h]
    norm_num [DCELL.value, DCELL.units, DCELL.sig, DCELL.qexp]
  ⟨hv, (C6_times_two_exact_below_overflow (DCELL.ofInt 3) 3 hv).1 (by norm_num)⟩

/-- C7, as stated, fails: the one-cell raster holding `2^1022` becomes `2^1023` in the
first run and positive infinity in the second, not `4 * 2^1022`. -/
theorem C7_counterexample :
    DCELL.value (DCELL.fin false ⟨2045, by decide⟩ ⟨0, by decide⟩) = some (2 ^ 1022) ∧
    written_rows
        (main (world_on
          (written_rows
            (main (world_on [[DCELL.fin false ⟨2045, by decide⟩ ⟨0, by decide⟩]] 1 1
              DCELL.nan)).log)
          1 1 DCELL.nan)).log = [[DCELL.inf false]] ∧
    DCELL.value (DCELL.inf false) ≠ some (4 * 2 ^ 1022) := by
  refine ⟨?_, by decide, by simp [DCELL.value]⟩
  norm_num [DCELL.value, DCELL.units, DCELL.sig, DCELL.qexp]

/-- C7, amended: when a second run reads, over the same region, the raster that a first
run wrote, it writes the null marker where the first input is null and
`times_two (times_two x)` where the first input is a number `x`; for a finite `x` of
value `v` that has the value `4 * v` exactly when `|v| < 2^1022` and is the infinity of
the sign of `v` when `2^1022 ≤ |v|`, and for every `x` it is the product of 4 and `x`
formed in `double`; `[[1.0]]` gives `[[2.0]]` after one run and `[[4.0]]` after two, so
two runs differ from one run on some raster and the driver is not idempotent. -/
theorem C7_two_runs_compose (w1 w2 : World) (in1 out1 in2 out2 : Int)
    (hp1 : w1.G_parser_result = 0)
    (hi1 : w1.Rast_open_old w1.input_answer = some in1)
    (ho1 : w1.Rast_open_new w1.output_answer (w1.Rast_map_type w1.input_answer) = some out1)
    (hp2 : w2.G_parser_result = 0)
    (hi2 : w2.Rast_open_old w2.input_answer = some in2)
    (ho2 : w2.Rast_open_new w2.output_answer (w2.Rast_map_type w2.input_answer) = some out2)
    (hrows : w2.Rast_window_rows = w1.Rast_window_rows)
    (hcols : w2.Rast_window_cols = w1.Rast_window_cols)
    (hfeed : ∀ (row col : Nat),
      w2.Rast_get_d_row in2 row col = cell_at (written_rows (main w1).log) row col) :
    written_rows (main w2).log =
        (List.range w1.Rast_window_rows.toNat).map (fun (row : Nat) =>
          (List.range w1.Rast_window_cols.toNat).map (fun (col : Nat) =>
            if Rast_is_d_null_value (w1.Rast_get_d_row in1 row col) then DCELL.nan
            else times_two (times_two (w1.Rast_get_d_row in1 row col)))) ∧
      (∀ (x : DCELL) (v : ℚ), DCELL.value x = some v → |v| < 2 ^ 1022 →
        DCELL.value (times_two (times_two x)) = some (4 * v)) ∧
      (∀ (x : DCELL) (v : ℚ), DCELL.value x = some v → 2 ^ 1022 ≤ |v| →
        times_two (times_two x) = DCELL.inf (decide (v < 0))) ∧
      (∀ x : DCELL, times_two (times_two x) = DCELL.mul (DCELL.ofInt 4) x) ∧
      (written_rows (main (world_on [[DCELL.ofInt 1]] 1 1 DCELL.nan)).log =
          [[DCELL.ofInt 2]] ∧
        written_rows
            (main (world_on
              (written_rows (main (world_on [[DCELL.ofInt 1]] 1 1 DCELL.nan)).log)
              1 1 DCELL.nan)).log = [[DCELL.ofInt 4]]) ∧
      (∃ cells : List (List DCELL),
        written_rows
            (main (world_on (written_rows (main (world_on cells 1 1 DCELL.nan)).log)
              1 1 DCELL.nan)).log ≠
          written_rows (main (world_on cells 1 1 DCELL.nan)).log) := by
  refine ⟨?_, ?_, times_two_twice_overflow, times_two_twice, ⟨by decide, by decide⟩,
    ⟨[[DCELL.ofInt 1]], by decide⟩⟩
  · rw [main_written_rows w2 in2 out2 hp2 hi2 ho2, hrows]
    apply List.map_congr_left
    intro row hrow
    have hr : row < w1.Rast_window_rows.toNat := List.mem_range.mp hrow
    unfold input_row
    rw [hcols, List.map_map]
    apply List.map_congr_left
    intro col hcol
    have hc : col < w1.Rast_window_cols.toNat := List.mem_range.mp hcol
    simp only [Function.comp_apply]
    rw [hfeed row col, main_written_cell w1 in1 out1 hp1 hi1 ho1 row col hr hc]
    exact cell_map_twice _
  · intro x v hv hlt
    have h1 : |v| < 2 ^ 1023 := by
      have : (2 : ℚ) ^ 1022 ≤ 2 ^ 1023 := by norm_num
      linarith
    have h2 := times_two_value x v hv h1
    have h3 : |2 * v| < 2 ^ 1023 := by
      rw [abs_mul, abs_two]
      have : (2 : ℚ) ^ 1023 = 2 * 2 ^ 1022 := by norm_num
      linarith
    have h4 := times_two_value (times_two x) (2 * v) h2 h3
    rw [h4]
    congr 1
    ring

/-- C7, amended, on `[[1.0]]`: one run gives `[[2.0]]`, and a second run on that gives
`[[4.0]]`. -/
theorem C7_two_runs_compose_witness :
    written_rows (main (world_on [[DCELL.ofInt 1]] 1 1 (DCELL.ofInt 7))).log =
      [[DCELL.ofInt 2]] ∧
    written_rows
        (main (world_on
          (written_rows (main (world_on [[DCELL.ofInt 1]] 1 1 (DCELL.ofInt 7))).log)
          1 1 (DCELL.ofInt 7))).log = [[DCELL.ofInt 4]] :=
  ⟨by decide,
   (C7_two_runs_compose (world_on [[DCELL.ofInt 1]] 1 1 (DCELL.ofInt 7))
      (world_on (written_rows (main (world_on [[DCELL.ofInt 1]] 1 1 (DCELL.ofInt 7))).log)
        1 1 (DCELL.ofInt 7))
      3 4 3 4 rfl rfl rfl rfl rfl rfl rfl rfl (fun _ _ => rfl)).1.trans (by decide)⟩

/-- C8: when the library cannot open the input map, the run ends with a non-zero exit
status, and no call of the run opens the output map, writes a row or writes the
history. -/
theorem C8_failed_open_writes_nothing (w : World)
    (h : w.Rast_open_old w.input_answer = none) :
    (main w).status ≠ 0 ∧ (main w).log.filter touches_output = [] := by
  unfold main
  by_cases hp : w.G_parser_result = 0
  · simp [hp, h, fatal, prologue, touches_output, EXIT_FAILURE]
  · simp [hp, prologue, touches_output, EXIT_FAILURE]

/-- C8, on a run whose input map does not open: the exit status is not zero and no call
of the run touches the output raster. -/
theorem C8_failed_open_writes_nothing_witness :
    (main { world_on [] 2 2 DCELL.nan with Rast_open_old := fun _ => none }).status ≠ 0 ∧
    (main { world_on [] 2 2 DCELL.nan with Rast_open_old := fun _ => none }).log.filter
      touches_output = [] :=
  C8_failed_open_writes_nothing
    { world_on [] 2 2 DCELL.nan with Rast_open_old := fun _ => none } rfl

/-- C9: in a run whose command line parses and whose two maps open, the row reads and
row writes are, in this order, read of row 0, write, read of row 1, write, and so on up
to row `nrows - 1`; the write that follows the read of row `row` carries that row mapped
cell by cell; and with `nrows ≤ 0` there is no read and no write.  In the full log of the
run every pass of the row loop is: progress report, read of the row, the calls for each
cell of the row from column 0 up, write of the row. -/
theorem C9_rows_read_and_written_in_order (w : World) (input_fd output_fd : Int)
    (hp : w.G_parser_result = 0)
    (hi : w.Rast_open_old w.input_answer = some input_fd)
    (ho : w.Rast_open_new w.output_answer (w.Rast_map_type w.input_answer) = some output_fd) :
    raster_io (main w).log =
        (List.range w.Rast_window_rows.toNat).flatMap (fun (row : Nat) =>
          [Event.Rast_get_d_row input_fd row,
           Event.Rast_put_d_row output_fd
             ((List.range w.Rast_window_cols.toNat).map (fun (col : Nat) =>
               if Rast_is_d_null_value (w.Rast_get_d_row input_fd row col) then DCELL.nan
               else times_two (w.Rast_get_d_row input_fd row col)))]) ∧
      (w.Rast_window_rows ≤ 0 → raster_io (main w).log = []) ∧
      (main w).log =
        setup w ++
          (List.range w.Rast_window_rows.toNat).flatMap
            (fun (row : Nat) =>
              [Event.G_percent row w.Rast_window_rows 10,
               Event.Rast_get_d_row input_fd row] ++
              (List.range w.Rast_window_cols.toNat).flatMap
                (fun col => cell_events col (w.Rast_get_d_row input_fd row col)) ++
              [Event.Rast_put_d_row output_fd ((input_row w input_fd row).map cell_map)]) ++
          epilogue w input_fd output_fd := by
  rw [main_raster_io w input_fd output_fd hp hi ho]
  refine ⟨?_, ?_, ?_⟩
  · simp [input_row, cell_map, Function.comp_def]
  · intro h0
    have : w.Rast_window_rows.toNat = 0 := by omega
    simp [this]
  · exact (main_ok w input_fd output_fd hp hi ho).1

/-- C9, on `[[1.0, null], [3.0, 4.0]]`: read row 0, write `[2.0, null]`, read row 1,
write `[6.0, 8.0]`. -/
theorem C9_rows_read_and_written_in_order_witness :
    raster_io
        (main (world_on [[DCELL.ofInt 1, DCELL.nan], [DCELL.ofInt 3, DCELL.ofInt 4]] 2 2
          (DCELL.ofInt 7))).log =
      [Event.Rast_get_d_row 3 0, Event.Rast_put_d_row 4 [DCELL.ofInt 2, DCELL.nan],
       Event.Rast_get_d_row 3 1, Event.Rast_put_d_row 4 [DCELL.ofInt 6, DCELL.ofInt 8]] :=
  (C9_rows_read_and_written_in_order
    (world_on [[DCELL.ofInt 1, DCELL.nan], [DCELL.ofInt 3, DCELL.ofInt 4]] 2 2
      (DCELL.ofInt 7)) 3 4 rfl rfl rfl).1.trans (by decide)

/-- C10: `times_two` is a total function, and in a run whose command line parses and
whose two maps open its calls are, in row-major order, exactly the cells of the region
on which the null test is false: one call for each such cell, none for a null cell, and
no argument is the null marker.  Cell by cell, the step makes the call exactly when the
null test fails. -/
theorem C10_times_two_called_on_non_null_cells (w : World) (input_fd output_fd : Int)
    (hp : w.G_parser_result = 0)
    (hi : w.Rast_open_old w.input_answer = some input_fd)
    (ho : w.Rast_open_new w.output_answer (w.Rast_map_type w.input_answer) = some output_fd) :
    times_two_calls (main w).log =
        ((List.range w.Rast_window_rows.toNat).flatMap (fun (row : Nat) =>
          (List.range w.Rast_window_cols.toNat).map (fun (col : Nat) =>
            w.Rast_get_d_row input_fd row col))).filter
          (fun v => !Rast_is_d_null_value v) ∧
      (times_two_calls (main w).log).length =
        ((List.range w.Rast_window_rows.toNat).flatMap (fun (row : Nat) =>
          (List.range w.Rast_window_cols.toNat).map (fun (col : Nat) =>
            w.Rast_get_d_row input_fd row col))).countP
          (fun v => !Rast_is_d_null_value v) ∧
      (∀ a ∈ times_two_calls (main w).log, Rast_is_d_null_value a = false) ∧
      (∀ (col : Nat) (st : State),
        times_two_calls (cell_step col st).log =
          times_two_calls st.log ++
            (if Rast_is_d_null_value (st.input_buffer col) then []
             else [st.input_buffer col])) := by
  have hcalls : times_two_calls (main w).log =
      ((List.range w.Rast_window_rows.toNat).flatMap (fun (row : Nat) =>
        (List.range w.Rast_window_cols.toNat).map (fun (col : Nat) =>
          w.Rast_get_d_row input_fd row col))).filter
        (fun v => !Rast_is_d_null_value v) := by
    rw [main_times_two_calls w input_fd output_fd hp hi ho, filter_flatMap]
    rfl
  refine ⟨hcalls, ?_, ?_, ?_⟩
  · rw [hcalls, List.countP_eq_length_filter]
  · intro a ha
    rw [hcalls] at ha
    have := (List.mem_filter.mp ha).2
    simpa using this
  · intro col st
    rw [cell_step_log, times_two_calls_append]
    unfold cell_events times_two_calls
    cases h : Rast_is_d_null_value (st.input_buffer col) <;> simp

/-- C10, on `[[1.0, null], [3.0, 4.0]]`: `times_two` is called on 1.0, 3.0 and 4.0. -/
theorem C10_times_two_called_on_non_null_cells_witness :
    times_two_calls
        (main (world_on [[DCELL.ofInt 1, DCELL.nan], [DCELL.ofInt 3, DCELL.ofInt 4]] 2 2
          (DCELL.ofInt 7))).log =
      [DCELL.ofInt 1, DCELL.ofInt 3, DCELL.ofInt 4] :=
  (C10_times_two_called_on_non_null_cells
    (world_on [[DCELL.ofInt 1, DCELL.nan], [DCELL.ofInt 3, DCELL.ofInt 4]] 2 2
      (DCELL.ofInt 7)) 3 4 rfl rfl rfl).1.trans (by decide)

end Twice
